import Mathlib

/-!
Verification of the core of the Crawl HTTP/1.1 client.

The C++ sources are modelled as a shallow embedding: `std::string` values
become lists of byte values (`List Nat`), machine integers become `Nat`/`Int`
with explicit wrap-around (`% 2^64`) where size_t overflow matters, clocks
become explicit `Nat` timestamps (milliseconds for `steady_clock` points,
divided by 1000 where the source applies `duration_cast<seconds>`), and
fallible operations return explicit result types.  Blocking system calls
(DNS resolution, `send`, `recv`, the liveness probe) are supplied as oracle
arguments so that the surrounding control flow can be modelled exactly.
-/

namespace Crawl

/-! ## Byte-string primitives (model of `std::string` operations) -/

/-- Bytes of a string literal, for writing concrete `std::string` values. -/
def strB (s : String) : List Nat := s.data.map Char.toNat

/-- `std::string::npos` (`SIZE_MAX`). -/
def NPOS : Nat := 18446744073709551615

/-- Index of the first occurrence of byte `c`, if any. -/
def idxOf (c : Nat) : List Nat → Option Nat
  | [] => none
  | x :: xs => if x = c then some 0 else (idxOf c xs).map (· + 1)

/-- Index of the first occurrence of `pat` as a contiguous run, if any. -/
def idxOfSeq (pat : List Nat) : List Nat → Option Nat
  | [] => if pat = [] then some 0 else none
  | x :: xs => if pat.isPrefixOf (x :: xs) then some 0 else (idxOfSeq pat xs).map (· + 1)

/-- `s.find(pat)` on bytes: index of first occurrence or `NPOS`. -/
def strFind (s pat : List Nat) : Nat :=
  match idxOfSeq pat s with
  | some j => j
  | none => NPOS

/-- `s.find(c, pos)` on bytes: index of first occurrence at/after `pos` or `NPOS`. -/
def findCharFrom (s : List Nat) (c : Nat) (pos : Nat) : Nat :=
  match idxOf c (s.drop pos) with
  | some j => pos + j
  | none => NPOS

/-- `s.substr(pos, len)`. -/
def substr (s : List Nat) (pos len : Nat) : List Nat := (s.drop pos).take len

/-- `s.substr(pos)`. -/
def substrFrom (s : List Nat) (pos : Nat) : List Nat := s.drop pos

/-- C-locale `::tolower` on a byte. -/
def toLowerB (b : Nat) : Nat := if 65 ≤ b ∧ b ≤ 90 then b + 32 else b

/-- Helper for `std::to_string`: decimal digits, with fuel for structural
recursion (`natToBytes` supplies fuel `n + 1`, which always suffices). -/
def natToBytesGo : Nat → Nat → List Nat
  | 0, _ => []
  | fuel + 1, n => if n < 10 then [48 + n] else natToBytesGo fuel (n / 10) ++ [48 + n % 10]

/-- Decimal byte string of a natural number (`std::to_string`, printf `%zu`). -/
def natToBytes (n : Nat) : List Nat := natToBytesGo (n + 1) n

/-- Decimal byte string of an `int` (`std::to_string(int)`); 45 is `-`. -/
def intToBytes (p : Int) : List Nat :=
  if p < 0 then 45 :: natToBytes p.natAbs else natToBytes p.natAbs

/-! ## Retry wrapper (`HTTPClient::Impl::execute_with_retry`, http_client.cpp)

`exec n` is the status code produced by the `n`-th call of `execute_request`
(the server oracle).  The wrapper only inspects `status_code`, so a run is
modelled as the final status code, the number of `execute_request` calls
made, and the error kinds recorded on the statistics sink, in order. -/

/-- The `while (attempts < max_attempts)` loop of `execute_with_retry`;
`remaining = max_attempts - attempts` and `attempt` counts calls so far. -/
def retryGo (exec : Nat → Int) (attempt : Nat) : Nat → List String → Int × Nat × List String
  | 0, errs => (0, attempt, errs ++ ["max_retries_exceeded"])
  | remaining + 1, errs =>
    let st := exec attempt
    if 0 < st ∧ st < 500 then (st, attempt + 1, errs)
    else if 0 < remaining then retryGo exec (attempt + 1) remaining (errs ++ ["retry"])
    else (0, attempt + 1, errs ++ ["max_retries_exceeded"])

/-- `execute_with_retry`: `max_attempts = max_retries + 1`. -/
def execute_with_retry (max_retries : Nat) (exec : Nat → Int) : Int × Nat × List String :=
  retryGo exec 0 (max_retries + 1) []

/-! ## Batch executor (`HTTPClient::batch_request`, http_client.cpp)

`resp i` is the response value eventually produced by the future launched for
request `i` (`futures.front().get()` always yields the front future's own
result, whatever the completion order, so completion order does not appear).
A default-constructed `Response` is modelled as the value `0`. -/

/-- Inner `while (futures.size() < max_parallel && idx < requests.size())`
launch loop; `remaining = N - idx`. -/
def fillFutures (P : Nat) : Nat → Nat → List Nat → Nat × List Nat
  | 0, idx, futures => (idx, futures)
  | remaining + 1, idx, futures =>
    if futures.length < P then fillFutures P remaining (idx + 1) (futures ++ [idx])
    else (idx, futures)

/-- Final `for (auto& future : futures)` drain: `futures.size()` is not
changed inside this loop, so every iteration writes the same slot
`responses.size() - futures.size()`. -/
def batchFinish (resp : Nat → Nat) (N : Nat) (futures : List Nat) (responses : List Nat) :
    List Nat :=
  futures.foldl (fun rs f => rs.set (N - futures.length) (resp f)) responses

/-- Outer `while (idx < requests.size())` loop of `batch_request`; each
iteration fills the future set, then harvests `futures.front()` into slot
`responses.size() - futures.size()` and erases the front.  `fuel` bounds the
number of iterations (the loop runs at most `N` harvests plus `N` launches,
so the fuel passed by `batch_request` is never exhausted for `P ≥ 1`). -/
def batchLoop (resp : Nat → Nat) (N P : Nat) : Nat → Nat → List Nat → List Nat → List Nat
  | 0, _, futures, responses => batchFinish resp N futures responses
  | fuel + 1, idx, futures, responses =>
    if idx < N then
      let fl := fillFutures P (N - idx) idx futures
      match fl.2 with
      | f :: rest =>
        batchLoop resp N P fuel fl.1 rest (responses.set (N - (rest.length + 1)) (resp f))
      | [] => batchLoop resp N P fuel fl.1 [] responses
    else batchFinish resp N futures responses

/-- `batch_request` over `N` requests with parallelism `P`:
`responses` starts as `N` default-constructed values. -/
def batch_request (N P : Nat) (resp : Nat → Nat) : List Nat :=
  batchLoop resp N P (2 * N + 2) 0 [] (List.replicate N 0)

/-! ## Rate limiter (`RateLimiter`, rate_limiter.cpp)

`rate` is the configured requests/second (a C++ `double`, modelled as `ℚ`;
the `(size_t)` and `(long long)` casts of positive values truncate, i.e.
floor).  Token timestamps are `Nat` nanoseconds. -/

structure RateLimiter where
  rate : ℚ
  burst : Nat
  interval : Nat
  tokens : List Nat
  last_refill : Nat
  deriving DecidableEq

/-- The `RateLimiter(rate, burst)` constructor: `burst_` defaults to
`(size_t)rate` when 0; `interval_` is set only when `rate > 0` (otherwise it
is never read; modelled as 0). -/
def mkRateLimiter (requests_per_second : ℚ) (burst : Nat) (now : Nat) : RateLimiter :=
  { rate := requests_per_second
    burst := if burst = 0 then requests_per_second.floor.toNat else burst
    interval := if 0 < requests_per_second
      then ((1000000000 : ℚ) / requests_per_second).floor.toNat else 0
    tokens := []
    last_refill := now }

/-- The `while (tokens_.size() < burst_ && tokens_to_add > 0)` append loop. -/
def pushTokens (burst now : Nat) : Nat → List Nat → List Nat
  | 0, toks => toks
  | n + 1, toks =>
    if toks.length < burst then pushTokens burst now n (toks ++ [now]) else toks

/-- `RateLimiter::refill` at clock reading `now`. -/
def RateLimiter.refill (rl : RateLimiter) (now : Nat) : RateLimiter :=
  if rl.rate ≤ 0 then rl
  else
    let elapsed := now - rl.last_refill
    let tokens_to_add := elapsed / rl.interval
    if 0 < tokens_to_add then
      { rl with tokens := pushTokens rl.burst now tokens_to_add rl.tokens, last_refill := now }
    else rl

/-- `RateLimiter::try_acquire` at clock reading `now`. -/
def RateLimiter.try_acquire (rl : RateLimiter) (now : Nat) : RateLimiter × Bool :=
  if rl.rate ≤ 0 then (rl, true)
  else
    match (rl.refill now).tokens with
    | [] => (rl.refill now, false)
    | _ :: rest => ({ rl.refill now with tokens := rest }, true)

/-- The retry loop inside `RateLimiter::acquire`: one clock reading per
iteration (the 1 ms sleep between iterations advances the clock); the loop
ends when a token is popped or the supplied readings run out. -/
def acquireGo (rl : RateLimiter) : List Nat → RateLimiter
  | [] => rl
  | now :: laters =>
    match (rl.refill now).tokens with
    | [] => acquireGo (rl.refill now) laters
    | _ :: rest => { rl.refill now with tokens := rest }

/-- `RateLimiter::acquire`: immediate return in unlimited mode, else the
refill/pop/sleep loop. -/
def RateLimiter.acquire (rl : RateLimiter) (nows : List Nat) : RateLimiter :=
  if rl.rate ≤ 0 then rl else acquireGo rl nows

/-- `RateLimiter::set_rate`: clears the deque, recomputes the interval
(only when the new rate is positive), resets `last_refill`. -/
def RateLimiter.set_rate (rl : RateLimiter) (requests_per_second : ℚ) (burst : Nat)
    (now : Nat) : RateLimiter :=
  { rate := requests_per_second
    burst := if burst = 0 then requests_per_second.floor.toNat else burst
    interval := if 0 < requests_per_second
      then ((1000000000 : ℚ) / requests_per_second).floor.toNat else rl.interval
    tokens := []
    last_refill := now }

/-- The claimed invariant: the token deque never exceeds the burst capacity. -/
def RateLimiter.inv (rl : RateLimiter) : Prop := rl.tokens.length ≤ rl.burst

theorem pushTokens_length_le (burst now : Nat) :
    ∀ n toks, List.length toks ≤ burst → (pushTokens burst now n toks).length ≤ burst := by
  intro n
  induction n with
  | zero => intro toks h; exact h
  | succ n ih =>
    intro toks h
    unfold pushTokens
    by_cases hlt : toks.length < burst
    · simp only [hlt, if_true]
      exact ih (toks ++ [now]) (by simpa using hlt)
    · simpa [hlt] using h

theorem RateLimiter.refill_inv (rl : RateLimiter) (now : Nat) (h : rl.inv) :
    (rl.refill now).inv := by
  unfold RateLimiter.refill
  by_cases hr : rl.rate ≤ 0
  · simpa [hr] using h
  · simp only [hr, if_false]
    by_cases ha : 0 < (now - rl.last_refill) / rl.interval
    · simp only [ha, if_true]
      exact pushTokens_length_le rl.burst now _ rl.tokens h
    · simpa [ha] using h

theorem RateLimiter.try_acquire_inv (rl : RateLimiter) (now : Nat) (h : rl.inv) :
    (rl.try_acquire now).1.inv := by
  unfold RateLimiter.try_acquire
  by_cases hr : rl.rate ≤ 0
  · simpa [hr] using h
  · simp only [hr, if_false]
    have h' : (rl.refill now).inv := rl.refill_inv now h
    rcases hm : (rl.refill now).tokens with _ | ⟨t, rest⟩
    · exact h'
    · show rest.length ≤ (rl.refill now).burst
      simp only [RateLimiter.inv, hm] at h'
      exact Nat.le_of_succ_le (by simpa using h')

theorem acquireGo_inv : ∀ (nows : List Nat) (rl : RateLimiter), rl.inv → (acquireGo rl nows).inv := by
  intro nows
  induction nows with
  | nil => intro rl h; exact h
  | cons now laters ih =>
    intro rl h
    unfold acquireGo
    have h' : (rl.refill now).inv := rl.refill_inv now h
    rcases hm : (rl.refill now).tokens with _ | ⟨t, rest⟩
    · exact ih _ h'
    · show rest.length ≤ (rl.refill now).burst
      simp only [RateLimiter.inv, hm] at h'
      exact Nat.le_of_succ_le (by simpa using h')

/-- Claim C9: the token deque never holds more than `burst` tokens —
`|tokens| ≤ burst` holds after construction and is preserved by `refill`,
`acquire`, `try_acquire` and `set_rate`. -/
theorem c9_tokens_le_burst :
    (∀ r b now, (mkRateLimiter r b now).inv)
    ∧ (∀ (rl : RateLimiter) now, rl.inv → (rl.refill now).inv)
    ∧ (∀ (rl : RateLimiter) now, rl.inv → (rl.try_acquire now).1.inv)
    ∧ (∀ (rl : RateLimiter) nows, rl.inv → (rl.acquire nows).inv)
    ∧ (∀ (rl : RateLimiter) r b now, (rl.set_rate r b now).inv) := by
  refine ⟨?_, ?_, ?_, ?_, ?_⟩
  · intro r b now; simp [mkRateLimiter, RateLimiter.inv]
  · exact fun rl now h => rl.refill_inv now h
  · exact fun rl now h => rl.try_acquire_inv now h
  · intro rl nows h
    unfold RateLimiter.acquire
    by_cases hr : rl.rate ≤ 0
    · simpa [hr] using h
    · simp only [hr, if_false]
      exact acquireGo_inv nows rl h
  · intro rl r b now; simp [RateLimiter.set_rate, RateLimiter.inv]

/-- Claim C9 witness: a concrete limiter (rate 10/s, default burst) keeps
`|tokens| ≤ burst` across a refill after one second. -/
theorem c9_tokens_le_burst_witness :
    ((mkRateLimiter 10 0 0).refill 1000000000).inv :=
  c9_tokens_le_burst.2.1 (mkRateLimiter 10 0 0) 1000000000
    (by simp [RateLimiter.inv, mkRateLimiter])

/-! ## Theorems for the retry wrapper (claim C1) -/

/-- Claim C1 counterexample: with `max_retries = 2` against a server that
answers 503 on every attempt, the wrapper does *not* return the terminal 503:
the returned status code is 0. -/
theorem c1_counterexample :
    (execute_with_retry 2 (fun _ => 503)).1 = 0
    ∧ (execute_with_retry 2 (fun _ => 503)).1 ≠ 503 := by
  decide

/-- Claim C1 (amended): with `max_retries = 2` against a server that answers
503 on every attempt, `execute_with_retry` performs 3 attempts total, records
"retry" twice, then records "max_retries_exceeded" and returns a response
with `status_code = 0` (the terminal 503 is discarded, not returned). -/
theorem c1_retry_amended (exec : Nat → Int) (h : ∀ n, exec n = 503) :
    execute_with_retry 2 exec = (0, 3, ["retry", "retry", "max_retries_exceeded"]) := by
  have hf : exec = fun _ => (503 : Int) := funext h
  rw [hf]
  decide

/-- Claim C1 witness: the amended statement at the always-503 server. -/
theorem c1_retry_amended_witness :
    execute_with_retry 2 (fun _ => 503) = (0, 3, ["retry", "retry", "max_retries_exceeded"]) :=
  c1_retry_amended (fun _ => 503) (fun _ => rfl)

/-! ## Theorems for the batch executor (claim C2) -/

/-- Claim C2 evaluation at the failing input: two requests with parallelism 1.
Request 0's response (value 100) is written to slot 1 and then overwritten by
request 1's response (value 101); slot 0 keeps the default-constructed
response (modelled as 0).  The claimed result `[100, 101]` is not produced. -/
theorem c2_batch_misorder :
    batch_request 2 1 (fun i => i + 100) = [0, 101]
    ∧ batch_request 2 1 (fun i => i + 100) ≠ [100, 101] := by
  decide

/-! ## Connection pool (`ConnectionPool`, connection_pool.cpp)

`std::map<PoolKey, std::vector<shared_ptr<PooledConnection>>>` is modelled as
an association list; `shared_ptr` identity is modelled by the `id` field
(release and acquire mutate the shared object, so they store/return updated
records with the same `id`).  The liveness probe (`recv(MSG_PEEK |
MSG_DONTWAIT)`) is an oracle `probe : id → Bool`: `true` means
EAGAIN/EWOULDBLOCK or readable bytes (alive), `false` means peer closed or a
hard error (dead).  Timestamps are `Nat` milliseconds;
`duration_cast<seconds>` is division by 1000. -/

structure PoolKey where
  host : String
  port : Int
  use_tls : Bool
  deriving DecidableEq

structure PooledConnection where
  id : Nat
  socket_fd : Int
  tls : Bool
  last_used : Nat
  in_use : Bool
  deriving DecidableEq

/-- Association-list lookup (`map::find`). -/
def alistLookup {α β : Type} [DecidableEq α] : List (α × β) → α → Option β
  | [], _ => none
  | (k', v) :: rest, k => if k' = k then some v else alistLookup rest k

/-- Association-list insert-or-assign (`map[k] = v`). -/
def alistSet {α β : Type} [DecidableEq α] : List (α × β) → α → β → List (α × β)
  | [], k, v => [(k, v)]
  | (k', v') :: rest, k, v =>
    if k' = k then (k, v) :: rest else (k', v') :: alistSet rest k v

/-- Association-list erase (`map::erase`). -/
def alistErase {α β : Type} [DecidableEq α] : List (α × β) → α → List (α × β)
  | [], _ => []
  | (k', v') :: rest, k => if k' = k then rest else (k', v') :: alistErase rest k

/-- `map[k]` default-constructing an empty entry when absent. -/
def ensureEntry {α β : Type} [DecidableEq α] [Inhabited β]
    (l : List (α × β)) (k : α) : List (α × β) :=
  if (alistLookup l k).isSome then l else l ++ [(k, default)]

structure ConnectionPool where
  max_connections : Int
  idle_timeout : Nat
  pools : List (PoolKey × List PooledConnection)
  deriving DecidableEq

/-- `ConnectionPool(max_connections, idle_timeout)`. -/
def mkConnectionPool (max_connections : Int) (idle_timeout : Nat) : ConnectionPool :=
  ⟨max_connections, idle_timeout, []⟩

/-- Total number of connections stored across all keys (the count computed
inside `ConnectionPool::release`). -/
def sumConns (pools : List (PoolKey × List PooledConnection)) : Nat :=
  (pools.map (fun e => e.2.length)).sum

def totalConns (p : ConnectionPool) : Nat := sumConns p.pools

/-- The `for (int i = size-1; i >= 0; --i)` scan of `ConnectionPool::acquire`,
expressed over the list already reversed (head = newest entry): skip in-use
entries, close-and-erase dead ones, take the first live idle one.  Returns
(result, kept entries newest-first, closed fds). -/
def scanNewest (probe : Nat → Bool) (now : Nat) :
    List PooledConnection → Option PooledConnection × List PooledConnection × List Int
  | [] => (none, [], [])
  | c :: rest =>
    if c.in_use then
      let r := scanNewest probe now rest
      (r.1, c :: r.2.1, r.2.2)
    else if probe c.id then
      (some { c with in_use := true, last_used := now },
       { c with in_use := true, last_used := now } :: rest, [])
    else
      let r := scanNewest probe now rest
      (r.1, r.2.1, c.socket_fd :: r.2.2)

/-- `ConnectionPool::acquire`: returns an existing idle live connection or
none (the caller creates new connections).  Also returns the updated pool and
the fds closed by failed liveness probes. -/
def ConnectionPool.acquire (p : ConnectionPool) (host : String) (port : Int)
    (use_tls : Bool) (probe : Nat → Bool) (now : Nat) :
    Option PooledConnection × ConnectionPool × List Int :=
  let key : PoolKey := ⟨host, port, use_tls⟩
  match alistLookup p.pools key with
  | none => (none, p, [])
  | some conns =>
    let r := scanNewest probe now conns.reverse
    (r.1, { p with pools := alistSet p.pools key r.2.1.reverse }, r.2.2)

/-- `ConnectionPool::release`: marks the connection idle; if the total stored
count (computed after `pools_[key]` default-constructs the entry) is at or
above `max_connections_`, closes the socket instead of pooling it; otherwise
appends it to the key's list.  Returns the pool and the closed fds. -/
def ConnectionPool.release (p : ConnectionPool) (host : String) (port : Int)
    (conn : PooledConnection) (now : Nat) : ConnectionPool × List Int :=
  if conn.socket_fd < 0 then (p, [])
  else
    let key : PoolKey := ⟨host, port, conn.tls⟩
    let conn' := { conn with in_use := false, last_used := now }
    let pools1 := ensureEntry p.pools key
    if p.max_connections ≤ (sumConns pools1 : Int) then
      ({ p with pools := pools1 }, [conn.socket_fd])
    else
      ({ p with pools := alistSet pools1 key ((alistLookup pools1 key).getD [] ++ [conn']) }, [])

/-- `ConnectionPool::cleanup_idle`: removes and closes every idle connection
whose idle time reached the pool's idle timeout. -/
def ConnectionPool.cleanup_idle (p : ConnectionPool) (now : Nat) : ConnectionPool × List Int :=
  let stale := fun (c : PooledConnection) =>
    !c.in_use && decide (p.idle_timeout ≤ (now - c.last_used) / 1000)
  ({ p with pools := p.pools.map (fun e => (e.1, e.2.filter (fun c => !(stale c)))) },
   ((p.pools.map (fun e => (e.2.filter stale).map (·.socket_fd))).flatten))

/-- `ConnectionPool::~ConnectionPool`: closes every remaining socket with
`socket_fd >= 0`. -/
def ConnectionPool.destructorClose (p : ConnectionPool) : List Int :=
  ((p.pools.map (fun e => (e.2.filter (fun c => decide (0 ≤ c.socket_fd))).map (·.socket_fd))).flatten)

/-! ## Request executor resource flow (`HTTPClient::Impl::execute_request`)

The claim-relevant part of `execute_request` is how it acquires, closes and
releases connections on each exit path; the response read/parse and the
statistics timings are not modelled.  `ExecEnv` supplies the outcomes of the
blocking calls: the pool liveness probe, DNS+connect (`connectFd = none`
models "no address connected"), the TLS handshake and `send`; `respStatus` is
the status parsed from the response on the success path.  The result is
(status code, final pool, fds closed by this call, error kinds recorded). -/

structure ExecEnv where
  probe : Nat → Bool
  connectFd : Option Int
  tlsOk : Bool
  sendOk : Bool
  respStatus : Int
  now : Nat
  newId : Nat

/-- The tail of `execute_request` from the `send` call on: on send failure
the socket is closed and the function returns *without* releasing the
connection; on success the connection is released to the pool. -/
def sendPhase (p1 : ConnectionPool) (host : String) (port : Int) (closedA : List Int)
    (conn : PooledConnection) (env : ExecEnv) : Int × ConnectionPool × List Int × List String :=
  if env.sendOk = false then (0, p1, closedA ++ [conn.socket_fd], ["send_failed"])
  else
    let r := p1.release host port conn env.now
    (env.respStatus, r.1, closedA ++ r.2, [])

/-- `execute_request` (connection-lifecycle view): acquire from the pool, or
create a new connection (connect failure → status 0, "connection_failed";
TLS handshake failure → close fd, status 0, "tls_handshake_failed"), then
send and read. -/
def execute_request (p : ConnectionPool) (host : String) (port : Int) (use_tls : Bool)
    (env : ExecEnv) : Int × ConnectionPool × List Int × List String :=
  let a := p.acquire host port use_tls env.probe env.now
  match a.1 with
  | some conn => sendPhase a.2.1 host port a.2.2 conn env
  | none =>
    match env.connectFd with
    | none => (0, a.2.1, a.2.2, ["connection_failed"])
    | some fd =>
      let conn : PooledConnection :=
        { id := env.newId, socket_fd := fd, tls := use_tls, last_used := env.now, in_use := true }
      if use_tls ∧ env.tlsOk = false then (0, a.2.1, a.2.2 ++ [fd], ["tls_handshake_failed"])
      else sendPhase a.2.1 host port a.2.2 conn env

/-! ## Association-list and pool lemmas -/

theorem alistLookup_set_self {α β : Type} [DecidableEq α] (l : List (α × β)) (k : α) (v : β) :
    alistLookup (alistSet l k v) k = some v := by
  induction l with
  | nil => simp [alistSet, alistLookup]
  | cons hd rest ih =>
    obtain ⟨k', v'⟩ := hd
    by_cases h : k' = k
    · simp [alistSet, alistLookup, h]
    · simp [alistSet, alistLookup, h, ih]

theorem alistLookup_append_of_none {α β : Type} [DecidableEq α] (l₁ l₂ : List (α × β)) (k : α) :
    alistLookup l₁ k = none → alistLookup (l₁ ++ l₂) k = alistLookup l₂ k := by
  induction l₁ with
  | nil => intro _; simp
  | cons hd rest ih =>
    intro h
    obtain ⟨k', v'⟩ := hd
    by_cases hk : k' = k
    · simp [alistLookup, hk] at h
    · simp [alistLookup, hk] at h
      simp only [List.cons_append]
      simp [alistLookup, hk]
      exact ih h

theorem alistLookup_ensureEntry_isSome {α β : Type} [DecidableEq α] [Inhabited β]
    (l : List (α × β)) (k : α) : ∃ v, alistLookup (ensureEntry l k) k = some v := by
  unfold ensureEntry
  rcases hl : alistLookup l k with _ | v
  · refine ⟨default, ?_⟩
    simp only [hl, Option.isSome_none, Bool.false_eq_true, if_false]
    rw [alistLookup_append_of_none _ _ _ hl]
    simp [alistLookup]
  · refine ⟨v, ?_⟩
    simp [hl]

theorem sumConns_append (l₁ l₂ : List (PoolKey × List PooledConnection)) :
    sumConns (l₁ ++ l₂) = sumConns l₁ + sumConns l₂ := by
  simp [sumConns]

theorem sumConns_ensureEntry (l : List (PoolKey × List PooledConnection)) (k : PoolKey) :
    sumConns (ensureEntry l k) = sumConns l := by
  unfold ensureEntry
  by_cases h : (alistLookup l k).isSome
  · simp [h]
  · simp only [h, if_false, sumConns_append]
    have hd : (default : List PooledConnection) = [] := rfl
    simp [sumConns, hd]

theorem sumConns_set (l : List (PoolKey × List PooledConnection)) (k : PoolKey)
    (v w : List PooledConnection) (h : alistLookup l k = some v) :
    sumConns (alistSet l k w) + v.length = sumConns l + w.length := by
  induction l with
  | nil => simp [alistLookup] at h
  | cons hd rest ih =>
    obtain ⟨k', v'⟩ := hd
    by_cases hk : k' = k
    · simp only [alistLookup, hk, if_true] at h
      cases h
      simp [alistSet, hk, sumConns]
      omega
    · simp only [alistLookup, hk, if_false] at h
      have := ih h
      simp only [alistSet, hk, if_false]
      simp only [sumConns, List.map_cons, List.sum_cons] at this ⊢
      omega

theorem scanNewest_length_le (probe : Nat → Bool) (now : Nat) :
    ∀ l : List PooledConnection, (scanNewest probe now l).2.1.length ≤ l.length := by
  intro l
  induction l with
  | nil => simp [scanNewest]
  | cons c rest ih =>
    unfold scanNewest
    by_cases h1 : c.in_use
    · simp only [h1, if_true]
      simpa using ih
    · by_cases h2 : probe c.id
      · simp [h1, h2]
      · simp only [h1, h2, if_false, Bool.false_eq_true]
        exact Nat.le_succ_of_le ih

/-! ## Claim C10: the pool never stores more than `max_connections` -/

/-- The claimed invariant: the pool's total stored count never exceeds its
configured `max_connections`. -/
def ConnectionPool.capacityInv (p : ConnectionPool) : Prop :=
  (totalConns p : Int) ≤ p.max_connections

/-- A pool operation: an acquire (with its probe oracle), a release, or an
idle sweep. -/
inductive PoolOp where
  | acq : String → Int → Bool → (Nat → Bool) → Nat → PoolOp
  | rel : String → Int → PooledConnection → Nat → PoolOp
  | cleanup : Nat → PoolOp

def applyOp (p : ConnectionPool) : PoolOp → ConnectionPool
  | .acq host port use_tls probe now => (p.acquire host port use_tls probe now).2.1
  | .rel host port conn now => (p.release host port conn now).1
  | .cleanup now => (p.cleanup_idle now).1

def applyOps (p : ConnectionPool) (ops : List PoolOp) : ConnectionPool :=
  ops.foldl applyOp p

theorem sumConns_map_filter_le (l : List (PoolKey × List PooledConnection))
    (f : PooledConnection → Bool) :
    sumConns (l.map (fun e => (e.1, e.2.filter f))) ≤ sumConns l := by
  induction l with
  | nil => simp [sumConns]
  | cons hd rest ih =>
    simp only [List.map_cons, sumConns, List.sum_cons] at ih ⊢
    have := List.length_filter_le f hd.2
    omega

theorem acquire_capacity (p : ConnectionPool) (host : String) (port : Int) (use_tls : Bool)
    (probe : Nat → Bool) (now : Nat) (h : p.capacityInv) :
    ((p.acquire host port use_tls probe now).2.1).capacityInv
    ∧ ((p.acquire host port use_tls probe now).2.1).max_connections = p.max_connections := by
  unfold ConnectionPool.acquire
  rcases hl : alistLookup p.pools ⟨host, port, use_tls⟩ with _ | conns
  · simp only [hl]
    exact ⟨h, by trivial⟩
  · simp only [hl]
    refine ⟨?_, by trivial⟩
    have hset := sumConns_set p.pools ⟨host, port, use_tls⟩ conns
      ((scanNewest probe now conns.reverse).2.1.reverse) hl
    have hlen := scanNewest_length_le probe now conns.reverse
    simp only [ConnectionPool.capacityInv, totalConns] at h ⊢
    rw [List.length_reverse] at hset hlen
    omega

theorem release_capacity (p : ConnectionPool) (host : String) (port : Int)
    (conn : PooledConnection) (now : Nat) (h : p.capacityInv) :
    ((p.release host port conn now).1).capacityInv
    ∧ ((p.release host port conn now).1).max_connections = p.max_connections := by
  unfold ConnectionPool.release
  by_cases hfd : conn.socket_fd < 0
  · rw [if_pos hfd]
    exact ⟨h, by trivial⟩
  · rw [if_neg hfd]
    by_cases hcap :
        p.max_connections ≤ (sumConns (ensureEntry p.pools ⟨host, port, conn.tls⟩) : Int)
    · rw [if_pos hcap]
      refine ⟨?_, by trivial⟩
      simp only [ConnectionPool.capacityInv, totalConns] at h ⊢
      rw [sumConns_ensureEntry]
      exact h
    · rw [if_neg hcap]
      refine ⟨?_, by trivial⟩
      rcases alistLookup_ensureEntry_isSome p.pools (PoolKey.mk host port conn.tls)
        with ⟨v, hv⟩
      simp only [ConnectionPool.capacityInv, totalConns] at h ⊢
      have hset := sumConns_set (ensureEntry p.pools ⟨host, port, conn.tls⟩)
        ⟨host, port, conn.tls⟩ v
        ((alistLookup (ensureEntry p.pools ⟨host, port, conn.tls⟩)
          ⟨host, port, conn.tls⟩).getD []
          ++ [{ conn with in_use := false, last_used := now }]) hv
      rw [hv] at hset
      simp only [hv, Option.getD_some]
      have hens := sumConns_ensureEntry p.pools (PoolKey.mk host port conn.tls)
      simp only [Option.getD_some, List.length_append, List.length_cons,
        List.length_nil] at hset
      omega

theorem cleanup_capacity (p : ConnectionPool) (now : Nat) (h : p.capacityInv) :
    ((p.cleanup_idle now).1).capacityInv
    ∧ ((p.cleanup_idle now).1).max_connections = p.max_connections := by
  unfold ConnectionPool.cleanup_idle
  refine ⟨?_, by trivial⟩
  simp only [ConnectionPool.capacityInv, totalConns] at h ⊢
  have hle := sumConns_map_filter_le p.pools
    (fun c => !(!c.in_use && decide (p.idle_timeout ≤ (now - c.last_used) / 1000)))
  omega

theorem applyOp_capacityInv (p : ConnectionPool) (op : PoolOp) (h : p.capacityInv) :
    (applyOp p op).capacityInv ∧ (applyOp p op).max_connections = p.max_connections := by
  cases op with
  | acq host port use_tls probe now => exact acquire_capacity p host port use_tls probe now h
  | rel host port conn now => exact release_capacity p host port conn now h
  | cleanup now => exact cleanup_capacity p now h

theorem applyOps_capacityInv : ∀ (ops : List PoolOp) (p : ConnectionPool), p.capacityInv →
    (applyOps p ops).capacityInv ∧ (applyOps p ops).max_connections = p.max_connections := by
  intro ops
  induction ops with
  | nil => exact fun p h => ⟨h, rfl⟩
  | cons op rest ih =>
    intro p h
    have h1 := applyOp_capacityInv p op h
    have h2 := ih (applyOp p op) h1.1
    exact ⟨h2.1, h2.2.trans h1.2⟩

/-- Claim C10: for every sequence of pool operations starting from a fresh
pool, the total number of connections stored across all keys never exceeds
`max_connections` (release appends only when the stored total is strictly
below `max_connections` and closes the socket instead otherwise; acquire and
the idle sweep only remove entries). -/
theorem c10_pool_capacity (max : Int) (idle : Nat) (hmax : 0 ≤ max) (ops : List PoolOp) :
    (totalConns (applyOps (mkConnectionPool max idle) ops) : Int) ≤ max := by
  have hinv : (mkConnectionPool max idle).capacityInv := by
    unfold ConnectionPool.capacityInv totalConns mkConnectionPool sumConns
    simpa using hmax
  have h := applyOps_capacityInv ops (mkConnectionPool max idle) hinv
  have hm : (applyOps (mkConnectionPool max idle) ops).max_connections = max := h.2
  exact le_of_le_of_eq h.1 hm

/-- Claim C10 witness: a fresh pool with capacity 1 stays within capacity
after two releases (the second release closes its connection instead of
storing it). -/
theorem c10_pool_capacity_witness :
    (totalConns (applyOps (mkConnectionPool 1 60)
      [PoolOp.rel "h" 80 ⟨0, 3, false, 0, true⟩ 5,
       PoolOp.rel "h" 80 ⟨1, 4, false, 0, true⟩ 6]) : Int) ≤ 1 :=
  c10_pool_capacity 1 60 (by decide)
    [PoolOp.rel "h" 80 ⟨0, 3, false, 0, true⟩ 5, PoolOp.rel "h" 80 ⟨1, 4, false, 0, true⟩ 6]

/-! ## Claim C7: release-then-acquire returns the same connection -/

/-- Claim C7 counterexample: a pool at capacity (`max_connections = 1`, one
connection already stored under another key) *closes and drops* a released
connection instead of pooling it, so the immediately following acquire on its
key returns nothing even though the liveness probe oracle would report every
connection alive (`fun _ => true`) and no idle time has passed — the claim as
stated, which has no capacity proviso, fails. -/
theorem c7_counterexample :
    (((ConnectionPool.release ⟨1, 60, [(⟨"x", 1, false⟩, [⟨1, 9, false, 0, false⟩])]⟩
        "h" 80 ⟨0, 3, false, 0, true⟩ 5).1).acquire "h" 80 false (fun _ => true) 6).1 = none
    ∧ (ConnectionPool.release ⟨1, 60, [(⟨"x", 1, false⟩, [⟨1, 9, false, 0, false⟩])]⟩
        "h" 80 ⟨0, 3, false, 0, true⟩ 5).2 = [3] := by
  decide

/-- Claim C7 (amended): after `release(k, c)`, an immediate `acquire(k)`
returns the connection `c` (same identity, marked in-use again), provided the
liveness probe succeeds for `c`, the idle timeout has not elapsed (no sweep
runs in between), *and* the pool was strictly below `max_connections` at
release time so that `c` was actually pooled; `c` must also carry a valid
socket (`fd ≥ 0`). -/
theorem c7_release_acquire (p : ConnectionPool) (host : String) (port : Int)
    (conn : PooledConnection) (t1 t2 : Nat) (probe : Nat → Bool)
    (hfd : 0 ≤ conn.socket_fd)
    (hcap : (sumConns (ensureEntry p.pools ⟨host, port, conn.tls⟩) : Int) < p.max_connections)
    (hprobe : probe conn.id = true) :
    (((p.release host port conn t1).1).acquire host port conn.tls probe t2).1
      = some { conn with in_use := true, last_used := t2 } := by
  have h1 : ¬ conn.socket_fd < 0 := not_lt.mpr hfd
  have h2 : ¬ p.max_connections ≤
      (sumConns (ensureEntry p.pools ⟨host, port, conn.tls⟩) : Int) := not_le.mpr hcap
  unfold ConnectionPool.release
  rw [if_neg h1, if_neg h2]
  unfold ConnectionPool.acquire
  dsimp only
  rw [alistLookup_set_self]
  simp only [List.reverse_append, List.reverse_cons, List.reverse_nil, List.nil_append,
    List.singleton_append]
  unfold scanNewest
  simp [hprobe]

/-- Claim C7 witness: the amended statement on a fresh pool with room. -/
theorem c7_release_acquire_witness :
    (((ConnectionPool.release (mkConnectionPool 5 60) "h" 80 ⟨0, 3, false, 0, true⟩ 1).1).acquire
        "h" 80 false (fun _ => true) 2).1 = some ⟨0, 3, false, 2, true⟩ :=
  c7_release_acquire (mkConnectionPool 5 60) "h" 80 ⟨0, 3, false, 0, true⟩ 1 2 (fun _ => true)
    (by decide) (by decide) rfl

/-! ## Claim C3: connection lifecycle of `execute_request` -/

/-- Claim C3: evaluation at the failing input.  A pool holds one idle live
connection (id 7, fd 5); the request acquires it (marking it in-use) and the
`send` fails.  `execute_request` closes fd 5 and returns, but never releases
or removes the connection: it remains stored in the pool marked `in_use`, and
the pool destructor closes fd 5 a second time — contradicting both the
guaranteed-release and the closed-exactly-once parts of the claim. -/
theorem c3_send_failure_leak :
    execute_request ⟨200, 90, [(⟨"h", 80, false⟩, [⟨7, 5, false, 0, false⟩])]⟩ "h" 80 false
        ⟨fun _ => true, none, true, false, 200, 10, 99⟩
      = (0, ⟨200, 90, [(⟨"h", 80, false⟩, [⟨7, 5, false, 10, true⟩])]⟩, [5], ["send_failed"])
    ∧ ConnectionPool.destructorClose
        ⟨200, 90, [(⟨"h", 80, false⟩, [⟨7, 5, false, 10, true⟩])]⟩ = [5] := by
  decide

/-! ## DNS cache (`DNSCache`, dns_cache.cpp)

Resolved addresses are opaque values (`Nat`); `do_resolve` (the blocking
`getaddrinfo` call, performed outside the lock) is supplied as the oracle
argument `resolved`.  The freshness check and the insertion each read the
clock once, so `resolve` takes the two readings `now_check` and `now_insert`.
Timestamps are milliseconds; `duration_cast<seconds>` is division by 1000. -/

structure CachedAddress where
  addresses : List Nat
  cached_at : Nat
  ttl : Nat
  deriving DecidableEq

structure DNSCache where
  default_ttl : Nat
  cache : List (String × CachedAddress)
  hits : Nat
  misses : Nat
  deriving DecidableEq

/-- `DNSCache::make_key`. -/
def make_key (host : String) (port : Int) : String := host ++ ":" ++ toString port

/-- The miss path of `DNSCache::resolve`: `misses_++`, then the system
resolution (its result is the oracle `resolved`), then insertion with
`cached_at = now` and the default TTL if the result is non-empty. -/
def DNSCache.resolveMiss (c : DNSCache) (key : String) (now_insert : Nat)
    (resolved : List Nat) : DNSCache × List Nat :=
  let c1 := { c with misses := c.misses + 1 }
  if resolved = [] then (c1, resolved)
  else ({ c1 with cache := alistSet c1.cache key ⟨resolved, now_insert, c.default_ttl⟩ },
        resolved)

/-- `DNSCache::resolve`: serve a fresh entry (`hits_++`), erase a stale one
and fall through to the miss path, or miss outright. -/
def DNSCache.resolve (c : DNSCache) (host : String) (port : Int)
    (now_check now_insert : Nat) (resolved : List Nat) : DNSCache × List Nat :=
  let key := make_key host port
  match alistLookup c.cache key with
  | some e =>
    if (now_check - e.cached_at) / 1000 < e.ttl then
      ({ c with hits := c.hits + 1 }, e.addresses)
    else
      DNSCache.resolveMiss { c with cache := alistErase c.cache key } key now_insert resolved
  | none => DNSCache.resolveMiss c key now_insert resolved

/-! ## Claim C6: repeated resolve within TTL -/

/-- The hit path of `resolve`: a fresh entry is served unchanged with only
`hits` incremented. -/
theorem resolve_hit (c : DNSCache) (host : String) (port : Int) (tc ti : Nat)
    (res : List Nat) (e : CachedAddress)
    (hl : alistLookup c.cache (make_key host port) = some e)
    (hfresh : (tc - e.cached_at) / 1000 < e.ttl) :
    c.resolve host port tc ti res = ({ c with hits := c.hits + 1 }, e.addresses) := by
  unfold DNSCache.resolve
  simp only [hl]
  rw [if_pos hfresh]

/-- After any resolve that returns a non-empty list, the cache entry for the
key holds exactly the returned list. -/
theorem resolve_entry_addresses (c : DNSCache) (host : String) (port : Int)
    (t1c t1i : Nat) (res : List Nat)
    (hne : (c.resolve host port t1c t1i res).2 ≠ []) :
    ∃ e, alistLookup (c.resolve host port t1c t1i res).1.cache (make_key host port) = some e
      ∧ e.addresses = (c.resolve host port t1c t1i res).2 := by
  unfold DNSCache.resolve at hne ⊢
  rcases hl : alistLookup c.cache (make_key host port) with _ | e0
  · simp only [hl] at hne ⊢
    unfold DNSCache.resolveMiss at hne ⊢
    dsimp only at hne ⊢
    by_cases hres : res = []
    · rw [if_pos hres] at hne
      simp [hres] at hne
    · rw [if_neg hres] at hne ⊢
      refine ⟨⟨res, t1i, c.default_ttl⟩, ?_, rfl⟩
      exact alistLookup_set_self _ _ _
  · simp only [hl] at hne ⊢
    by_cases hfresh : (t1c - e0.cached_at) / 1000 < e0.ttl
    · rw [if_pos hfresh] at hne ⊢
      exact ⟨e0, hl, rfl⟩
    · rw [if_neg hfresh] at hne ⊢
      unfold DNSCache.resolveMiss at hne ⊢
      dsimp only at hne ⊢
      by_cases hres : res = []
      · rw [if_pos hres] at hne
        simp [hres] at hne
      · rw [if_neg hres] at hne ⊢
        refine ⟨⟨res, t1i, c.default_ttl⟩, ?_, rfl⟩
        exact alistLookup_set_self _ _ _

/-- Claim C6: (1) a `resolve(h,p)` that follows a successful (non-empty)
`resolve(h,p)` and is issued while `now - cached_at < ttl` (seconds
truncation, as the source computes it) for the cached entry returns the
identical address list and increments `hits` — and nothing else: the cache
and `misses` are unchanged; (2) a cached entry is served (i.e. `hits` grows)
only while `now - cached_at < ttl`, and then the result is the entry's list. -/
theorem c6_dns_cache :
    (∀ (c : DNSCache) (host : String) (port : Int) (t1c t1i : Nat) (res : List Nat)
        (e : CachedAddress) (t2c t2i : Nat) (res2 : List Nat),
      (c.resolve host port t1c t1i res).2 ≠ [] →
      alistLookup (c.resolve host port t1c t1i res).1.cache (make_key host port) = some e →
      (t2c - e.cached_at) / 1000 < e.ttl →
      ((c.resolve host port t1c t1i res).1).resolve host port t2c t2i res2
        = ({ (c.resolve host port t1c t1i res).1 with
              hits := (c.resolve host port t1c t1i res).1.hits + 1 },
           (c.resolve host port t1c t1i res).2))
    ∧ (∀ (c : DNSCache) (host : String) (port : Int) (tc ti : Nat) (res : List Nat),
      c.hits < ((c.resolve host port tc ti res).1).hits →
      ∃ e, alistLookup c.cache (make_key host port) = some e
        ∧ (tc - e.cached_at) / 1000 < e.ttl
        ∧ (c.resolve host port tc ti res).2 = e.addresses) := by
  constructor
  · intro c host port t1c t1i res e t2c t2i res2 hne hl hfresh
    rcases resolve_entry_addresses c host port t1c t1i res hne with ⟨e', hl', he'⟩
    rw [hl'] at hl
    cases hl
    rw [resolve_hit _ host port t2c t2i res2 e hl' hfresh, he']
  · intro c host port tc ti res hhits
    unfold DNSCache.resolve at hhits ⊢
    rcases hl : alistLookup c.cache (make_key host port) with _ | e0
    · simp only [hl] at hhits ⊢
      unfold DNSCache.resolveMiss at hhits
      dsimp only at hhits
      by_cases hres : res = []
      · rw [if_pos hres] at hhits
        simp at hhits
      · rw [if_neg hres] at hhits
        simp at hhits
    · simp only [hl] at hhits ⊢
      by_cases hfresh : (tc - e0.cached_at) / 1000 < e0.ttl
      · rw [if_pos hfresh] at hhits ⊢
        exact ⟨e0, rfl, hfresh, rfl⟩
      · rw [if_neg hfresh] at hhits
        unfold DNSCache.resolveMiss at hhits
        dsimp only at hhits
        by_cases hres : res = []
        · rw [if_pos hres] at hhits
          simp at hhits
        · rw [if_neg hres] at hhits
          simp at hhits

/-- Claim C6 witness: after a first successful resolve inserted addresses
`[1, 2]` at time 5 with TTL 300 s, a resolve at time 100 ms serves the same
list and bumps only the hit counter. -/
theorem c6_dns_cache_witness :
    (DNSCache.mk 300 [("h:80", ⟨[1, 2], 5, 300⟩)] 0 1).resolve "h" 80 100 100 []
      = (DNSCache.mk 300 [("h:80", ⟨[1, 2], 5, 300⟩)] 1 1, [1, 2]) := by
  have h := c6_dns_cache.1 (DNSCache.mk 300 [] 0 0) "h" 80 0 5 [1, 2] ⟨[1, 2], 5, 300⟩ 100 100 []
    (by decide) (by decide) (by decide)
  exact h

/-! ## Parallel segmented downloader (`parallel_download`, main source file)

`size_t` arithmetic wraps modulo 2^64 (`W64`), which matters in the
`end_byte = (i + 1) * segment_size - 1` computation.  `seg i a` is the
(status, body) returned by the `a`-th request attempt of segment `i`'s
worker. -/

/-- 2^64, the modulus of `size_t` arithmetic. -/
def W64 : Nat := 18446744073709551616

/-- The `Range` header built for segment `i` (`snprintf("bytes=%zu-%zu")`,
or `"bytes=%zu-"` for the last segment). -/
def segmentRangeHeader (content_length num_pipes i : Nat) : List Nat :=
  let segment_size := content_length / num_pipes
  let start_byte := (i * segment_size) % W64
  if i = num_pipes - 1 then
    strB "bytes=" ++ natToBytes start_byte ++ strB "-"
  else
    let end_byte := ((i + 1) * segment_size + (W64 - 1)) % W64
    strB "bytes=" ++ natToBytes start_byte ++ strB "-" ++ natToBytes end_byte

/-- One worker's `do { resp = pipe_client.request(req); retries++ } while
(resp.status_code != 206 && retries < 3)` loop: the final response. -/
def segmentAttempts (f : Nat → Int × List Nat) : Int × List Nat :=
  let r0 := f 0
  if r0.1 = 206 then r0
  else
    let r1 := f 1
    if r1.1 = 206 then r1 else f 2

/-- `parallel_download`: bail out for fewer than 2 pipes or no content;
otherwise each segment stores its body in `parts[i]` when its final status is
206 (an empty part otherwise), and the parts are concatenated in index
order. -/
def parallel_download (content_length num_pipes : Nat)
    (seg : Nat → Nat → Int × List Nat) : List Nat :=
  if num_pipes < 2 ∨ content_length = 0 then []
  else
    ((List.range num_pipes).map (fun i =>
      let r := segmentAttempts (seg i)
      if r.1 = 206 then r.2 else [])).flatten

/-- The byte range requested by segment `i`'s header, as a predicate on byte
offsets: inclusive `START..END` for the first `N-1` segments, open-ended
(truncated by the server at `CL - 1`) for the last. -/
def inSegment (content_length num_pipes i b : Nat) : Prop :=
  let segment_size := content_length / num_pipes
  if i = num_pipes - 1 then
    (num_pipes - 1) * segment_size ≤ b ∧ b < content_length
  else i * segment_size ≤ b ∧ b < (i + 1) * segment_size

/-- Claim C8: for a segmented download of `CL` bytes over `N ≥ 2` segments
(with `CL ≥ N`, so segments are non-empty, and `CL < 2^64` as for any real
`size_t` length): segments `0..N-2` send `bytes=START-END` with
`START = i·⌊CL/N⌋` and `END = (i+1)·⌊CL/N⌋ - 1`, the last segment sends the
open-ended `bytes=(N-1)·⌊CL/N⌋-`, the requested ranges partition bytes
`0..CL-1` (each byte belongs to exactly one segment's range), and the
successful parts are concatenated in segment-index order. -/
theorem c8_segmented_ranges (CL N : Nat) (h2 : 2 ≤ N) (hN : N ≤ CL) (hW : CL < W64) :
    (∀ i, i < N - 1 →
        segmentRangeHeader CL N i
          = strB "bytes=" ++ natToBytes (i * (CL / N)) ++ strB "-"
            ++ natToBytes ((i + 1) * (CL / N) - 1))
    ∧ segmentRangeHeader CL N (N - 1)
        = strB "bytes=" ++ natToBytes ((N - 1) * (CL / N)) ++ strB "-"
    ∧ (∀ b, b < CL → ∃ i, i < N ∧ inSegment CL N i b
        ∧ ∀ j, j < N → inSegment CL N j b → j = i)
    ∧ (∀ seg : Nat → Nat → Int × List Nat,
        parallel_download CL N seg
          = ((List.range N).map (fun i =>
              let r := segmentAttempts (seg i)
              if r.1 = 206 then r.2 else [])).flatten) := by
  have hNpos : 0 < N := by omega
  have hsz : 1 ≤ CL / N := (Nat.le_div_iff_mul_le hNpos).mpr (by omega)
  have hmul : N * (CL / N) ≤ CL := by
    rw [Nat.mul_comm]
    exact Nat.div_mul_le_self CL N
  refine ⟨?_, ?_, ?_, ?_⟩
  · intro i hi
    unfold segmentRangeHeader
    have hne : ¬ i = N - 1 := by omega
    rw [if_neg hne]
    have hb1 : (i + 1) * (CL / N) ≤ CL := by
      calc (i + 1) * (CL / N) ≤ N * (CL / N) := Nat.mul_le_mul_right _ (by omega)
        _ ≤ CL := hmul
    have hb0 : i * (CL / N) < W64 := by
      have : i * (CL / N) ≤ (i + 1) * (CL / N) := Nat.mul_le_mul_right _ (by omega)
      omega
    have hmod0 : (i * (CL / N)) % W64 = i * (CL / N) := Nat.mod_eq_of_lt hb0
    have hpos : 1 ≤ (i + 1) * (CL / N) := by
      calc 1 = 1 * 1 := rfl
        _ ≤ (i + 1) * (CL / N) := Nat.mul_le_mul (by omega) hsz
    have heq : (i + 1) * (CL / N) + (W64 - 1) = ((i + 1) * (CL / N) - 1) + W64 := by omega
    have hmod1 : ((i + 1) * (CL / N) + (W64 - 1)) % W64 = (i + 1) * (CL / N) - 1 := by
      rw [heq, Nat.add_mod_right, Nat.mod_eq_of_lt (by omega)]
    rw [hmod0, hmod1]
  · unfold segmentRangeHeader
    rw [if_pos rfl]
    have hb1 : (N - 1) * (CL / N) ≤ CL := by
      calc (N - 1) * (CL / N) ≤ N * (CL / N) := Nat.mul_le_mul_right _ (by omega)
        _ ≤ CL := hmul
    rw [Nat.mod_eq_of_lt (by omega)]
  · intro b hb
    have hszpos : 0 < CL / N := hsz
    by_cases hcase : b / (CL / N) < N - 1
    · refine ⟨b / (CL / N), by omega, ?_, ?_⟩
      · unfold inSegment
        rw [if_neg (by omega)]
        exact ⟨(Nat.le_div_iff_mul_le hszpos).mp (le_refl _),
          (Nat.div_lt_iff_lt_mul hszpos).mp (by omega)⟩
      · intro j hj hjin
        unfold inSegment at hjin
        by_cases hjlast : j = N - 1
        · rw [if_pos hjlast] at hjin
          have : N - 1 ≤ b / (CL / N) := (Nat.le_div_iff_mul_le hszpos).mpr hjin.1
          omega
        · rw [if_neg hjlast] at hjin
          have h1 : j ≤ b / (CL / N) := (Nat.le_div_iff_mul_le hszpos).mpr hjin.1
          have h2 : b / (CL / N) < j + 1 := (Nat.div_lt_iff_lt_mul hszpos).mpr hjin.2
          omega
    · refine ⟨N - 1, by omega, ?_, ?_⟩
      · unfold inSegment
        rw [if_pos rfl]
        refine ⟨(Nat.le_div_iff_mul_le hszpos).mp (by omega), hb⟩
      · intro j hj hjin
        unfold inSegment at hjin
        by_cases hjlast : j = N - 1
        · exact hjlast
        · rw [if_neg hjlast] at hjin
          have h2 : b / (CL / N) < j + 1 := (Nat.div_lt_iff_lt_mul hszpos).mpr hjin.2
          omega
  · intro seg
    unfold parallel_download
    rw [if_neg (by omega)]

/-- Claim C8 witness: `CL = 10`, `N = 3` (`⌊CL/N⌋ = 3`): the last segment's
header is the open-ended `bytes=6-`. -/
theorem c8_segmented_ranges_witness :
    segmentRangeHeader 10 3 2
      = strB "bytes=" ++ natToBytes (2 * (10 / 3)) ++ strB "-" :=
  (c8_segmented_ranges 10 3 (by decide) (by decide) (by decide)).2.1

/-! ## URL parser (`URL::parse` / `URL::to_string`, http_client.cpp)

Byte constants: 47 `/`, 63 `?`, 58 `:`, 45 `-`, 43 `+`, 48–57 digits.
`std::stoi` (via `strtol`) skips leading whitespace, accepts an optional
sign, consumes the maximal digit run (throwing `std::invalid_argument` when
there is none) and throws `std::out_of_range` outside `int` range; a thrown
exception escapes `URL::parse`, which has no handler, so the parse outcome
type has explicit exception constructors. -/

def isSpaceB (b : Nat) : Bool := b = 32 || (9 ≤ b && b ≤ 13)

def isDigitB (b : Nat) : Bool := 48 ≤ b && b ≤ 57

inductive StoiResult where
  | ok : Int → StoiResult
  | invalidArgument : StoiResult
  | outOfRange : StoiResult
  deriving DecidableEq

/-- Value of a big-endian digit-byte run. -/
def natVal (ds : List Nat) : Nat := ds.foldl (fun a b => a * 10 + (b - 48)) 0

/-- The `int`-range check of `std::stoi`: out of range throws
`std::out_of_range`. -/
def stoiClamp (v : Int) : StoiResult :=
  if v < -2147483648 ∨ 2147483647 < v then .outOfRange else .ok v

/-- `std::stoi` on bytes (base 10): skip whitespace, read an optional sign
(45 `-`, 43 `+`), consume the maximal digit run (none throws
`std::invalid_argument`). -/
def stoiB (s : List Nat) : StoiResult :=
  let s1 := s.dropWhile isSpaceB
  let sign : Int := if s1.head? = some 45 then -1 else 1
  let s2 := if s1.head? = some 45 ∨ s1.head? = some 43 then s1.tail else s1
  let ds := s2.takeWhile isDigitB
  if ds = [] then .invalidArgument
  else stoiClamp (sign * (natVal ds : Int))

structure URL where
  scheme : List Nat
  host : List Nat
  port : Int
  path : List Nat
  query : List Nat
  deriving DecidableEq

inductive ParseOutcome where
  | ok : URL → ParseOutcome
  | noParse : ParseOutcome
  | raisesInvalidArgument : ParseOutcome
  | raisesOutOfRange : ParseOutcome
  deriving DecidableEq

/-- The path/query block at the end of `URL::parse` (reached only when
`std::stoi` did not throw): path from the first `/`, query after the first
`?` when it follows the path, otherwise a dropped query and a path running
to the end of the string; with no `/` at all, path `"/"` and query after
`?` if present. -/
def pathQueryOf (url : List Nat) (path_start query_start : Nat) : List Nat × List Nat :=
  if path_start ≠ NPOS then
    if query_start ≠ NPOS ∧ path_start < query_start then
      (substr url path_start (query_start - path_start), substrFrom url (query_start + 1))
    else (substrFrom url path_start, [])
  else
    ([47], if query_start ≠ NPOS then substrFrom url (query_start + 1) else [])

/-- `size_t scheme_end = url.find("://")`. -/
def schemeEndOf (url : List Nat) : Nat := strFind url (strB "://")

/-- `result.scheme = lowercase(url.substr(0, scheme_end))`. -/
def schemeOf (url : List Nat) : List Nat :=
  (substr url 0 (schemeEndOf url)).map toLowerB

/-- `size_t path_start = url.find('/', pos)` with `pos = scheme_end + 3`. -/
def pathStartOf (url : List Nat) : Nat := findCharFrom url 47 (schemeEndOf url + 3)

/-- `size_t query_start = url.find('?', pos)`. -/
def queryStartOf (url : List Nat) : Nat := findCharFrom url 63 (schemeEndOf url + 3)

/-- `size_t host_end = min(path_start, query_start)`, falling back to
`url.length()` when both are `npos`. -/
def hostEndOf (url : List Nat) : Nat :=
  if min (pathStartOf url) (queryStartOf url) = NPOS then url.length
  else min (pathStartOf url) (queryStartOf url)

/-- `std::string host_port = url.substr(pos, host_end - pos)`. -/
def hostPortOf (url : List Nat) : List Nat :=
  substr url (schemeEndOf url + 3) (hostEndOf url - (schemeEndOf url + 3))

/-- `size_t port_delim = host_port.find(':')`. -/
def portDelimOf (url : List Nat) : Nat := findCharFrom (hostPortOf url) 58 0

/-- `URL::parse`. -/
def URL.parse (url : List Nat) : ParseOutcome :=
  if schemeEndOf url = NPOS then .noParse
  else if portDelimOf url ≠ NPOS then
    match stoiB (substrFrom (hostPortOf url) (portDelimOf url + 1)) with
    | .invalidArgument => .raisesInvalidArgument
    | .outOfRange => .raisesOutOfRange
    | .ok p =>
      .ok ⟨schemeOf url, substr (hostPortOf url) 0 (portDelimOf url), p,
           (pathQueryOf url (pathStartOf url) (queryStartOf url)).1,
           (pathQueryOf url (pathStartOf url) (queryStartOf url)).2⟩
  else
    .ok ⟨schemeOf url, hostPortOf url,
         (if schemeOf url = strB "https" then 443 else 80),
         (pathQueryOf url (pathStartOf url) (queryStartOf url)).1,
         (pathQueryOf url (pathStartOf url) (queryStartOf url)).2⟩

/-- `URL::to_string`: port emitted only when non-default for the scheme. -/
def URL.to_string (u : URL) : List Nat :=
  u.scheme ++ strB "://" ++ u.host ++
  (if (u.scheme = strB "http" ∧ u.port ≠ 80) ∨ (u.scheme = strB "https" ∧ u.port ≠ 443)
   then 58 :: intToBytes u.port else []) ++
  u.path ++ (if u.query = [] then [] else 63 :: u.query)

/-! ## Claim C4: `URL::parse` never throws -/

/-- Claim C4: evaluation at the failing input.  On `"http://host:abc/"` the
port component after `:` is non-numeric, `std::stoi` throws
`std::invalid_argument`, and the exception escapes `URL::parse` — the claim
that parse never throws fails.  (The absent-value conjunct for inputs
without `"://"` does hold, as the second conjunct shows on an example.) -/
theorem c4_parse_throws :
    URL.parse (strB "http://host:abc/") = .raisesInvalidArgument
    ∧ URL.parse (strB "example.com/path") = .noParse := by
  decide

/-! ## Claim C5: parse/to_string round trip -/

/-- Claim C5 counterexample: `s = "http://host?a/b?c"` parses (the `?a` query
before the first `/` is dropped and the path becomes `"/b?c"`), but
re-parsing `to_string` of the result splits the path at its `?`, yielding
path `"/b"` and query `"c"` — a different URL, so
`parse(to_string(parse s)) ≠ parse s`. -/
theorem c5_counterexample :
    URL.parse (strB "http://host?a/b?c")
      = .ok ⟨strB "http", strB "host", 80, strB "/b?c", []⟩
    ∧ URL.parse (URL.to_string ⟨strB "http", strB "host", 80, strB "/b?c", []⟩)
      ≠ .ok ⟨strB "http", strB "host", 80, strB "/b?c", []⟩ := by
  decide

/-! ## Characterizations of the byte-string search primitives -/

theorem idxOf_eq_some_iff {c : Nat} : ∀ (s : List Nat) (j : Nat),
    idxOf c s = some j ↔ s[j]? = some c ∧ ∀ m, m < j → s[m]? ≠ some c := by
  intro s
  induction s with
  | nil => intro j; simp [idxOf]
  | cons x xs ih =>
    intro j
    by_cases hx : x = c
    · subst hx
      cases j with
      | zero => simp [idxOf]
      | succ j' =>
        simp only [idxOf, if_pos rfl]
        constructor
        · intro h; simp at h
        · rintro ⟨h1, h2⟩
          exact absurd (List.getElem?_cons_zero) (h2 0 (Nat.succ_pos j'))
    · simp only [idxOf, if_neg hx]
      cases j with
      | zero =>
        constructor
        · intro h
          rcases Option.map_eq_some'.mp h with ⟨j'', _, hplus⟩
          omega
        · rintro ⟨h1, _⟩
          rw [List.getElem?_cons_zero] at h1
          exact absurd (Option.some.inj h1) hx
      | succ j' =>
        constructor
        · intro h
          rcases Option.map_eq_some'.mp h with ⟨j'', hj, hplus⟩
          have hjj : j'' = j' := by omega
          rw [hjj] at hj
          have hih := (ih j').mp hj
          refine ⟨by simpa using hih.1, ?_⟩
          intro m hm
          cases m with
          | zero =>
            rw [List.getElem?_cons_zero]
            intro hc
            exact hx (Option.some.inj hc)
          | succ m' =>
            rw [List.getElem?_cons_succ]
            exact hih.2 m' (by omega)
        · rintro ⟨h1, h2⟩
          have h1' : xs[j']? = some c := by simpa using h1
          have h2' : ∀ m, m < j' → xs[m]? ≠ some c := by
            intro m hm
            have := h2 (m + 1) (by omega)
            simpa using this
          rw [(ih j').mpr ⟨h1', h2'⟩]
          rfl

theorem idxOf_eq_none_iff {c : Nat} : ∀ (s : List Nat),
    idxOf c s = none ↔ ∀ m : Nat, s[m]? ≠ some c := by
  intro s
  induction s with
  | nil => simp [idxOf]
  | cons x xs ih =>
    by_cases hx : x = c
    · subst hx
      simp only [idxOf, if_pos rfl]
      constructor
      · intro h; simp at h
      · intro h
        exact absurd List.getElem?_cons_zero (h 0)
    · simp only [idxOf, if_neg hx, Option.map_eq_none']
      rw [ih]
      constructor
      · intro h m
        cases m with
        | zero =>
          rw [List.getElem?_cons_zero]
          intro hc
          exact hx (Option.some.inj hc)
        | succ m' =>
          rw [List.getElem?_cons_succ]
          exact h m'
      · intro h m
        have := h (m + 1)
        simpa using this

theorem isPrefixOf_three_iff (a b c : Nat) (l : List Nat) :
    [a, b, c].isPrefixOf l = true ↔ l[0]? = some a ∧ l[1]? = some b ∧ l[2]? = some c := by
  rcases l with _ | ⟨x, _ | ⟨y, _ | ⟨z, r⟩⟩⟩
  · constructor
    · intro h; simp [List.isPrefixOf] at h
    · rintro ⟨h0, -, -⟩
      cases (show (none : Option Nat) = some a from h0)
  · constructor
    · intro h; simp [List.isPrefixOf] at h
    · rintro ⟨-, h1, -⟩
      cases (show (none : Option Nat) = some b from h1)
  · constructor
    · intro h; simp [List.isPrefixOf] at h
    · rintro ⟨-, -, h2⟩
      cases (show (none : Option Nat) = some c from h2)
  · constructor
    · intro h
      have h' : a = x ∧ b = y ∧ c = z := by
        simpa [List.isPrefixOf] using h
      exact ⟨by simp [h'.1], by simp [h'.2.1], by simp [h'.2.2]⟩
    · rintro ⟨h0, h1, h2⟩
      have hx : x = a := Option.some.inj (by simpa using h0)
      have hy : y = b := Option.some.inj (by simpa using h1)
      have hz : z = c := Option.some.inj (by simpa using h2)
      subst hx
      subst hy
      subst hz
      simp [List.isPrefixOf]

theorem idxOfSeq_eq_some_iff {pat : List Nat} (hpat : pat ≠ []) : ∀ (s : List Nat) (j : Nat),
    idxOfSeq pat s = some j
      ↔ pat.isPrefixOf (s.drop j) = true ∧ ∀ m, m < j → ¬ pat.isPrefixOf (s.drop m) = true := by
  intro s
  induction s with
  | nil =>
    intro j
    simp only [idxOfSeq, if_neg hpat, List.drop_nil]
    constructor
    · intro h; simp at h
    · rintro ⟨h1, _⟩
      rcases pat with _ | ⟨p, ps⟩
      · exact absurd rfl hpat
      · simp [List.isPrefixOf] at h1
  | cons x xs ih =>
    intro j
    by_cases hpre : pat.isPrefixOf (x :: xs) = true
    · simp only [idxOfSeq, hpre, if_true]
      cases j with
      | zero => simp [hpre]
      | succ j' =>
        constructor
        · intro h; simp at h
        · rintro ⟨_, h2⟩
          exact absurd (by simpa using hpre) (h2 0 (Nat.succ_pos j'))
    · simp only [idxOfSeq, hpre, if_false]
      cases j with
      | zero =>
        constructor
        · intro h
          rcases Option.map_eq_some'.mp h with ⟨j'', _, hplus⟩
          omega
        · rintro ⟨h1, _⟩
          exact absurd (by simpa using h1) hpre
      | succ j' =>
        constructor
        · intro h
          rcases Option.map_eq_some'.mp h with ⟨j'', hj, hplus⟩
          have hjj : j'' = j' := by omega
          rw [hjj] at hj
          have hih := (ih j').mp hj
          refine ⟨by simpa using hih.1, ?_⟩
          intro m hm
          cases m with
          | zero => simpa using hpre
          | succ m' =>
            rw [List.drop_succ_cons]
            exact hih.2 m' (by omega)
        · rintro ⟨h1, h2⟩
          have h1' : pat.isPrefixOf (xs.drop j') = true := by simpa using h1
          have h2' : ∀ m, m < j' → ¬ pat.isPrefixOf (xs.drop m) = true := by
            intro m hm
            have := h2 (m + 1) (by omega)
            simpa using this
          rw [(ih j').mpr ⟨h1', h2'⟩]
          rfl

/-- `findCharFrom` either reports no occurrence at/after `pos`, or returns
the position of the first one (always a real index of `s`). -/
theorem findCharFrom_spec (s : List Nat) (c pos : Nat) :
    (findCharFrom s c pos = NPOS ∧ ∀ m, pos ≤ m → s[m]? ≠ some c)
    ∨ (pos ≤ findCharFrom s c pos ∧ findCharFrom s c pos < s.length
        ∧ s[findCharFrom s c pos]? = some c
        ∧ ∀ m, pos ≤ m → m < findCharFrom s c pos → s[m]? ≠ some c) := by
  rcases hidx : idxOf c (s.drop pos) with _ | j
  · left
    have hfc : findCharFrom s c pos = NPOS := by
      unfold findCharFrom
      rw [hidx]
    refine ⟨hfc, ?_⟩
    intro m hm
    have := (idxOf_eq_none_iff (s.drop pos)).mp hidx (m - pos)
    rw [List.getElem?_drop] at this
    have heq : pos + (m - pos) = m := by omega
    rwa [heq] at this
  · right
    have hfc : findCharFrom s c pos = pos + j := by
      unfold findCharFrom
      rw [hidx]
    rw [hfc]
    have hspec := (idxOf_eq_some_iff (s.drop pos) j).mp hidx
    have hj : (s.drop pos)[j]? = some c := hspec.1
    have hlen : j < (s.drop pos).length := by
      rcases List.getElem?_eq_some.mp hj with ⟨h, _⟩
      exact h
    rw [List.getElem?_drop] at hj
    rw [List.length_drop] at hlen
    refine ⟨by omega, by omega, hj, ?_⟩
    intro m hm1 hm2
    have := hspec.2 (m - pos) (by omega)
    rw [List.getElem?_drop] at this
    have heq : pos + (m - pos) = m := by omega
    rwa [heq] at this

/-! ## `tolower` byte lemmas -/

theorem toLowerB_idem (b : Nat) : toLowerB (toLowerB b) = toLowerB b := by
  unfold toLowerB
  by_cases h : 65 ≤ b ∧ b ≤ 90
  · rw [if_pos h, if_neg (by omega)]
  · rw [if_neg h, if_neg h]

theorem toLowerB_eq_low {b t : Nat} (ht : t < 65) (h : toLowerB b = t) : b = t := by
  unfold toLowerB at h
  split at h <;> omega

theorem map_toLowerB_idem (l : List Nat) :
    (l.map toLowerB).map toLowerB = l.map toLowerB := by
  rw [List.map_map]
  exact List.map_congr_left (fun a _ => toLowerB_idem a)

/-! ## Search over concatenations (to re-parse `to_string` output) -/

theorem idxOf_append_some {c : Nat} {a b : List Nat} {j : Nat} (ha : c ∉ a)
    (hb : idxOf c b = some j) : idxOf c (a ++ b) = some (a.length + j) := by
  induction a with
  | nil => simpa using hb
  | cons x a' ih =>
    have hx : x ≠ c := fun h => ha (h ▸ List.mem_cons_self x a')
    simp only [List.cons_append, idxOf, if_neg hx, List.append_eq]
    rw [ih (fun h => ha (List.mem_cons_of_mem x h))]
    simp only [Option.map_some', List.length_cons]
    exact congrArg some (by omega)

theorem idxOf_append_none {c : Nat} {a b : List Nat} (ha : c ∉ a)
    (hb : idxOf c b = none) : idxOf c (a ++ b) = none := by
  induction a with
  | nil => simpa using hb
  | cons x a' ih =>
    have hx : x ≠ c := fun h => ha (h ▸ List.mem_cons_self x a')
    simp only [List.cons_append, idxOf, if_neg hx, List.append_eq]
    rw [ih (fun h => ha (List.mem_cons_of_mem x h))]
    rfl

theorem idxOf_cons_self {c : Nat} (r : List Nat) : idxOf c (c :: r) = some 0 := by
  simp [idxOf]

theorem findCharFrom_of_drop_some {s : List Nat} {c pos j : Nat}
    (h : idxOf c (s.drop pos) = some j) : findCharFrom s c pos = pos + j := by
  unfold findCharFrom
  rw [h]

theorem findCharFrom_of_drop_none {s : List Nat} {c pos : Nat}
    (h : idxOf c (s.drop pos) = none) : findCharFrom s c pos = NPOS := by
  unfold findCharFrom
  rw [h]

theorem strB_sep : strB "://" = [58, 47, 47] := by decide

/-- The scheme/separator boundary: when no `"://"` occurs inside `sch`, the
first occurrence in `sch ++ "://" ++ rest` is exactly at `sch.length` (no
occurrence can straddle the boundary either). -/
theorem idxOfSeq_boundary (sch rest : List Nat)
    (h : ∀ m : Nat, ¬ [58, 47, 47].isPrefixOf (sch.drop m) = true) :
    idxOfSeq [58, 47, 47] (sch ++ 58 :: 47 :: 47 :: rest) = some sch.length := by
  rw [idxOfSeq_eq_some_iff (by decide)]
  constructor
  · have hdrop : (sch ++ 58 :: 47 :: 47 :: rest).drop sch.length = 58 :: 47 :: 47 :: rest :=
      List.drop_left sch _
    rw [hdrop]
    simp [List.isPrefixOf]
  · intro m hm hpre
    rw [isPrefixOf_three_iff] at hpre
    obtain ⟨h0, h1, h2⟩ := hpre
    rw [List.getElem?_drop] at h0 h1 h2
    by_cases hm2 : m + 2 < sch.length
    · apply h m
      rw [isPrefixOf_three_iff]
      refine ⟨?_, ?_, ?_⟩ <;> rw [List.getElem?_drop]
      · exact (List.getElem?_append_left (by omega)).symm.trans h0
      · exact (List.getElem?_append_left (by omega)).symm.trans h1
      · exact (List.getElem?_append_left (by omega)).symm.trans h2
    · rcases (show m + 1 = sch.length ∨ m + 2 = sch.length by omega) with hb | hb
      · rw [List.getElem?_append_right (by omega)] at h1
        rw [show m + 1 - sch.length = 0 by omega] at h1
        simp at h1
      · rw [List.getElem?_append_right (by omega)] at h2
        rw [show m + 2 - sch.length = 0 by omega] at h2
        simp at h2

theorem strFind_boundary (sch rest : List Nat)
    (h : ∀ m : Nat, ¬ [58, 47, 47].isPrefixOf (sch.drop m) = true) :
    strFind (sch ++ 58 :: 47 :: 47 :: rest) (strB "://") = sch.length := by
  unfold strFind
  rw [strB_sep, idxOfSeq_boundary sch rest h]

/-! ## Decimal rendering and `stoi` round trip -/

theorem natToBytesGo_stable : ∀ (n f : Nat), n < f → natToBytesGo f n = natToBytes n := by
  intro n
  induction n using Nat.strong_induction_on with
  | _ n ih =>
    intro f hf
    cases f with
    | zero => omega
    | succ f' =>
      show natToBytesGo (f' + 1) n = natToBytesGo (n + 1) n
      unfold natToBytesGo
      by_cases h10 : n < 10
      · rw [if_pos h10, if_pos h10]
      · rw [if_neg h10, if_neg h10]
        congr 1
        have hd : n / 10 < n := Nat.div_lt_self (by omega) (by omega)
        rw [ih (n / 10) hd f' (by omega), ih (n / 10) hd n (by omega)]

theorem natToBytes_eq (n : Nat) :
    natToBytes n = if n < 10 then [48 + n] else natToBytes (n / 10) ++ [48 + n % 10] := by
  show natToBytesGo (n + 1) n = _
  unfold natToBytesGo
  by_cases h10 : n < 10
  · rw [if_pos h10, if_pos h10]
  · rw [if_neg h10, if_neg h10]
    congr 1
    exact natToBytesGo_stable (n / 10) n (Nat.div_lt_self (by omega) (by omega))

theorem natToBytes_ne_nil (n : Nat) : natToBytes n ≠ [] := by
  rw [natToBytes_eq]
  split <;> simp

theorem natToBytes_digits : ∀ (n b : Nat), b ∈ natToBytes n → 48 ≤ b ∧ b ≤ 57 := by
  intro n
  induction n using Nat.strong_induction_on with
  | _ n ih =>
    intro b hb
    rw [natToBytes_eq] at hb
    by_cases h10 : n < 10
    · rw [if_pos h10] at hb
      simp at hb
      omega
    · rw [if_neg h10] at hb
      rcases List.mem_append.mp hb with hmem | hmem
      · exact ih (n / 10) (Nat.div_lt_self (by omega) (by omega)) b hmem
      · simp at hmem
        have : n % 10 < 10 := Nat.mod_lt _ (by omega)
        omega

theorem natVal_append_digit (a : List Nat) (d : Nat) :
    natVal (a ++ [d]) = natVal a * 10 + (d - 48) := by
  simp [natVal, List.foldl_append]

theorem natVal_natToBytes : ∀ n : Nat, natVal (natToBytes n) = n := by
  intro n
  induction n using Nat.strong_induction_on with
  | _ n ih =>
    rw [natToBytes_eq]
    by_cases h10 : n < 10
    · rw [if_pos h10]
      simp [natVal]
    · rw [if_neg h10, natVal_append_digit,
        ih (n / 10) (Nat.div_lt_self (by omega) (by omega))]
      have := Nat.div_add_mod n 10
      omega

theorem stoiB_digits (d : Nat) (rest : List Nat)
    (hdig : ∀ b ∈ d :: rest, 48 ≤ b ∧ b ≤ 57)
    (hub : (natVal (d :: rest) : Int) ≤ 2147483647) :
    stoiB (d :: rest) = .ok (natVal (d :: rest)) := by
  obtain ⟨hd1, hd2⟩ := hdig d (List.mem_cons_self d rest)
  unfold stoiB
  have hdrop : List.dropWhile isSpaceB (d :: rest) = d :: rest := by
    rw [List.dropWhile_cons, if_neg (by simp [isSpaceB]; omega)]
  dsimp only
  rw [hdrop]
  have hhead : (d :: rest).head? = some d := rfl
  rw [hhead]
  have h45 : ¬ (some d = some 45) := by simp; omega
  have h43 : ¬ (some d = some 45 ∨ some d = some 43) := by simp; omega
  rw [if_neg h45, if_neg h43]
  have htake : List.takeWhile isDigitB (d :: rest) = d :: rest := by
    rw [List.takeWhile_eq_self_iff]
    intro b hb
    have := hdig b hb
    simp [isDigitB]
    omega
  rw [htake]
  rw [if_neg (by simp)]
  unfold stoiClamp
  rw [one_mul, if_neg (by omega)]

theorem stoiB_neg_digits (d : Nat) (rest : List Nat)
    (hdig : ∀ b ∈ d :: rest, 48 ≤ b ∧ b ≤ 57)
    (hub : (natVal (d :: rest) : Int) ≤ 2147483648) :
    stoiB (45 :: d :: rest) = .ok (-(natVal (d :: rest) : Int)) := by
  unfold stoiB
  have hdrop : List.dropWhile isSpaceB (45 :: d :: rest) = 45 :: d :: rest := by
    rw [List.dropWhile_cons, if_neg (by simp [isSpaceB])]
  dsimp only
  rw [hdrop]
  have hhead : (45 :: d :: rest).head? = some 45 := rfl
  rw [hhead]
  rw [if_pos rfl, if_pos (Or.inl rfl)]
  have htake : List.takeWhile isDigitB ((45 :: d :: rest).tail) = d :: rest := by
    show List.takeWhile isDigitB (d :: rest) = d :: rest
    rw [List.takeWhile_eq_self_iff]
    intro b hb
    have := hdig b hb
    simp [isDigitB]
    omega
  rw [htake]
  rw [if_neg (by simp)]
  unfold stoiClamp
  rw [neg_one_mul, if_neg (by omega)]

theorem stoiB_intToBytes (p : Int) (h1 : -2147483648 ≤ p) (h2 : p ≤ 2147483647) :
    stoiB (intToBytes p) = .ok p := by
  unfold intToBytes
  by_cases hp : p < 0
  · rw [if_pos hp]
    have habs : (p.natAbs : Int) = -p := Int.ofNat_natAbs_of_nonpos (by omega)
    rcases hds : natToBytes p.natAbs with _ | ⟨d, rest⟩
    · exact absurd hds (natToBytes_ne_nil _)
    · have hdig : ∀ b ∈ d :: rest, 48 ≤ b ∧ b ≤ 57 := by
        intro b hb
        exact natToBytes_digits p.natAbs b (hds ▸ hb)
      have hval : natVal (d :: rest) = p.natAbs := by
        rw [← hds, natVal_natToBytes]
      rw [stoiB_neg_digits d rest hdig (by rw [hval]; omega)]
      rw [hval]
      congr 1
      omega
  · rw [if_neg hp]
    have habs : (p.natAbs : Int) = p := Int.natAbs_of_nonneg (by omega)
    rcases hds : natToBytes p.natAbs with _ | ⟨d, rest⟩
    · exact absurd hds (natToBytes_ne_nil _)
    · have hdig : ∀ b ∈ d :: rest, 48 ≤ b ∧ b ≤ 57 := by
        intro b hb
        exact natToBytes_digits p.natAbs b (hds ▸ hb)
      have hval : natVal (d :: rest) = p.natAbs := by
        rw [← hds, natVal_natToBytes]
      rw [stoiB_digits d rest hdig (by rw [hval]; omega)]
      rw [hval, habs]

theorem stoiClamp_ok_range (v p : Int) (h : stoiClamp v = .ok p) :
    -2147483648 ≤ p ∧ p ≤ 2147483647 := by
  unfold stoiClamp at h
  by_cases hr : v < -2147483648 ∨ 2147483647 < v
  · rw [if_pos hr] at h
    cases h
  · rw [if_neg hr] at h
    cases h
    omega

theorem natToBytes_length_le : ∀ n : Nat, (natToBytes n).length ≤ n + 1 := by
  intro n
  induction n using Nat.strong_induction_on with
  | _ n ih =>
    rw [natToBytes_eq]
    by_cases h10 : n < 10
    · rw [if_pos h10]
      simp
    · rw [if_neg h10]
      have hd : n / 10 < n := Nat.div_lt_self (by omega) (by omega)
      have := ih (n / 10) hd
      simp only [List.length_append, List.length_cons, List.length_nil]
      omega

theorem intToBytes_mem (p : Int) (b : Nat) (hb : b ∈ intToBytes p) :
    b = 45 ∨ (48 ≤ b ∧ b ≤ 57) := by
  unfold intToBytes at hb
  by_cases hp : p < 0
  · rw [if_pos hp] at hb
    rcases List.mem_cons.mp hb with h | h
    · exact Or.inl h
    · exact Or.inr (natToBytes_digits _ b h)
  · rw [if_neg hp] at hb
    exact Or.inr (natToBytes_digits _ b hb)

theorem intToBytes_length_le (p : Int) : (intToBytes p).length ≤ p.natAbs + 2 := by
  unfold intToBytes
  have := natToBytes_length_le p.natAbs
  split <;> simp <;> omega

theorem stoiB_ok_range (s : List Nat) (p : Int) (h : stoiB s = .ok p) :
    -2147483648 ≤ p ∧ p ≤ 2147483647 := by
  unfold stoiB at h
  dsimp only at h
  by_cases hc : (List.dropWhile isSpaceB s).head? = some 45
      ∨ (List.dropWhile isSpaceB s).head? = some 43
  · rw [if_pos hc] at h
    by_cases hds : List.takeWhile isDigitB (List.dropWhile isSpaceB s).tail = []
    · rw [if_pos hds] at h
      cases h
    · rw [if_neg hds] at h
      exact stoiClamp_ok_range _ p h
  · rw [if_neg hc] at h
    by_cases hds : List.takeWhile isDigitB (List.dropWhile isSpaceB s) = []
    · rw [if_pos hds] at h
      cases h
    · rw [if_neg hds] at h
      exact stoiClamp_ok_range _ p h

/-! ## Anatomy of a successful `URL::parse` -/

theorem substr_zero (s : List Nat) (len : Nat) : substr s 0 len = s.take len := by
  unfold substr
  rw [List.drop_zero]

theorem mem_take_idx {b : Nat} {l : List Nat} {q : Nat} (hb : b ∈ l.take q) :
    ∃ n, n < q ∧ l[n]? = some b := by
  rcases List.mem_iff_getElem?.mp hb with ⟨n, hn⟩
  rw [List.getElem?_take] at hn
  by_cases hlt : n < q
  · rw [if_pos hlt] at hn
    exact ⟨n, hlt, hn⟩
  · rw [if_neg hlt] at hn
    cases hn

theorem mem_idx {b : Nat} {l : List Nat} (hb : b ∈ l) : ∃ n : Nat, l[n]? = some b :=
  List.mem_iff_getElem?.mp hb

/-- If parse did not bail out, the `"://"` separator really occurs first at
`schemeEndOf`. -/
theorem schemeEnd_some (s : List Nat) (hse : schemeEndOf s ≠ NPOS) :
    idxOfSeq [58, 47, 47] s = some (schemeEndOf s) := by
  have hsep : schemeEndOf s = strFind s [58, 47, 47] := by
    unfold schemeEndOf
    rw [strB_sep]
  rcases hidx : idxOfSeq [58, 47, 47] s with _ | k
  · exfalso
    apply hse
    rw [hsep]
    unfold strFind
    rw [hidx]
  · rw [hsep]
    unfold strFind
    rw [hidx]

theorem schemeEnd_plus3_le (s : List Nat) {k : Nat}
    (hk : idxOfSeq [58, 47, 47] s = some k) : k + 3 ≤ s.length := by
  have hpre := ((idxOfSeq_eq_some_iff (by decide) s k).mp hk).1
  rw [isPrefixOf_three_iff] at hpre
  rcases List.getElem?_eq_some.mp hpre.2.2 with ⟨hlt, _⟩
  rw [List.length_drop] at hlt
  omega

theorem schemeOf_lower (s : List Nat) : (schemeOf s).map toLowerB = schemeOf s :=
  map_toLowerB_idem _

theorem schemeOf_len_le (s : List Nat) : (schemeOf s).length ≤ s.length := by
  unfold schemeOf substr
  rw [List.length_map]
  calc ((s.drop 0).take (schemeEndOf s)).length ≤ (s.drop 0).length :=
        List.length_take_le' _ _
    _ ≤ s.length := by rw [List.drop_zero]

/-- No `"://"` occurs inside the lowercased scheme (else the original find
would have hit it earlier). -/
theorem schemeOf_noPat (s : List Nat) (hse : schemeEndOf s ≠ NPOS) :
    ∀ m : Nat, ¬ [58, 47, 47].isPrefixOf ((schemeOf s).drop m) = true := by
  have hk := schemeEnd_some s hse
  have hiff := (idxOfSeq_eq_some_iff (by decide) s (schemeEndOf s)).mp hk
  intro m hpre
  rw [isPrefixOf_three_iff] at hpre
  obtain ⟨h0, h1, h2⟩ := hpre
  rw [List.getElem?_drop] at h0 h1 h2
  unfold schemeOf at h0 h1 h2
  rw [substr_zero] at h0 h1 h2
  rw [List.getElem?_map] at h0 h1 h2
  rcases Option.map_eq_some'.mp h0 with ⟨b0, hb0, hl0⟩
  rcases Option.map_eq_some'.mp h1 with ⟨b1, hb1, hl1⟩
  rcases Option.map_eq_some'.mp h2 with ⟨b2, hb2, hl2⟩
  have e0 : b0 = 58 := toLowerB_eq_low (by omega) hl0
  have e1 : b1 = 47 := toLowerB_eq_low (by omega) hl1
  have e2 : b2 = 47 := toLowerB_eq_low (by omega) hl2
  rw [List.getElem?_take] at hb0 hb1 hb2
  by_cases hm2 : m + 2 < schemeEndOf s
  · rw [if_pos (by omega)] at hb0
    rw [if_pos (by omega)] at hb1
    rw [if_pos hm2] at hb2
    apply hiff.2 m (by omega)
    rw [isPrefixOf_three_iff]
    refine ⟨?_, ?_, ?_⟩ <;> rw [List.getElem?_drop]
    · rw [Nat.add_zero]
      rw [e0] at hb0
      exact hb0
    · rw [e1] at hb1
      exact hb1
    · rw [e2] at hb2
      exact hb2
  · rw [if_neg hm2] at hb2
    cases hb2

/-- Between the authority start and `host_end` there is no `/` and no `?`. -/
theorem no_sep_before_hostEnd (s : List Nat) (hlt : s.length < NPOS) (m : Nat)
    (hm1 : schemeEndOf s + 3 ≤ m) (hm2 : m < hostEndOf s) :
    s[m]? ≠ some 47 ∧ s[m]? ≠ some 63 := by
  unfold hostEndOf pathStartOf queryStartOf at hm2
  constructor
  · intro hmem
    rcases findCharFrom_spec s 47 (schemeEndOf s + 3) with ⟨hfc, hnone⟩ |
      ⟨hge, hlt', hat, hbefore⟩
    · exact hnone m hm1 hmem
    · apply hbefore m hm1 ?_ hmem
      have h1 := min_le_left (findCharFrom s 47 (schemeEndOf s + 3))
        (findCharFrom s 63 (schemeEndOf s + 3))
      by_cases hmin : min (findCharFrom s 47 (schemeEndOf s + 3))
          (findCharFrom s 63 (schemeEndOf s + 3)) = NPOS
      · rw [if_pos hmin] at hm2
        omega
      · rw [if_neg hmin] at hm2
        omega
  · intro hmem
    rcases findCharFrom_spec s 63 (schemeEndOf s + 3) with ⟨hfc, hnone⟩ |
      ⟨hge, hlt', hat, hbefore⟩
    · exact hnone m hm1 hmem
    · apply hbefore m hm1 ?_ hmem
      have h1 := min_le_right (findCharFrom s 47 (schemeEndOf s + 3))
        (findCharFrom s 63 (schemeEndOf s + 3))
      by_cases hmin : min (findCharFrom s 47 (schemeEndOf s + 3))
          (findCharFrom s 63 (schemeEndOf s + 3)) = NPOS
      · rw [if_pos hmin] at hm2
        omega
      · rw [if_neg hmin] at hm2
        omega

theorem hostPort_no_sep (s : List Nat) (hlt : s.length < NPOS) :
    ∀ b ∈ hostPortOf s, b ≠ 47 ∧ b ≠ 63 := by
  intro b hb
  unfold hostPortOf substr at hb
  rcases mem_take_idx hb with ⟨n, hn1, hn2⟩
  rw [List.getElem?_drop] at hn2
  have hsep := no_sep_before_hostEnd s hlt (schemeEndOf s + 3 + n) (by omega) (by omega)
  constructor
  · intro hb47
    exact hsep.1 (hb47 ▸ hn2)
  · intro hb63
    exact hsep.2 (hb63 ▸ hn2)

theorem hostPortOf_len_le (s : List Nat) : (hostPortOf s).length ≤ s.length := by
  unfold hostPortOf substr
  calc ((s.drop (schemeEndOf s + 3)).take _).length
      ≤ (s.drop (schemeEndOf s + 3)).length := List.length_take_le' _ _
    _ ≤ s.length := by rw [List.length_drop]; omega

theorem idxOf_none_of_not_mem {c : Nat} {l : List Nat} (h : c ∉ l) : idxOf c l = none := by
  rw [idxOf_eq_none_iff]
  intro m hm
  exact h (List.mem_iff_getElem?.mpr ⟨m, hm⟩)

/-- In the explicit-port branch, the host part (before the first `:` of
`host_port`) contains no `:`. -/
theorem host_before_delim (s : List Nat) (hpd : portDelimOf s ≠ NPOS) :
    ∀ b ∈ substr (hostPortOf s) 0 (portDelimOf s), b ≠ 58 := by
  intro b hb
  rw [substr_zero] at hb
  rcases mem_take_idx hb with ⟨n, hn1, hn2⟩
  rcases findCharFrom_spec (hostPortOf s) 58 0 with ⟨hfc, _⟩ | ⟨_, _, _, hbefore⟩
  · exact absurd hfc hpd
  · intro hb58
    exact hbefore n (by omega) hn1 (hb58 ▸ hn2)

/-- In the default-port branch, `host_port` contains no `:` at all. -/
theorem hostPort_no_colon (s : List Nat) (hlt : (hostPortOf s).length < NPOS)
    (hpd : portDelimOf s = NPOS) : ∀ b ∈ hostPortOf s, b ≠ 58 := by
  intro b hb hb58
  rcases findCharFrom_spec (hostPortOf s) 58 0 with ⟨hfc, hnone⟩ | ⟨_, hlt', _, _⟩
  · rcases mem_idx hb with ⟨n, hn⟩
    exact hnone n (by omega) (hb58 ▸ hn)
  · unfold portDelimOf at hpd
    omega

/-- Shape of the path/query pair produced by a successful parse: the path is
non-empty, starts with `/`, and the lengths are bounded by the input. -/
theorem pathQueryOf_spec (s : List Nat) :
    (pathQueryOf s (pathStartOf s) (queryStartOf s)).1 ≠ []
    ∧ (pathQueryOf s (pathStartOf s) (queryStartOf s)).1[0]? = some 47
    ∧ (pathQueryOf s (pathStartOf s) (queryStartOf s)).1.length ≤ s.length + 1
    ∧ (pathQueryOf s (pathStartOf s) (queryStartOf s)).2.length ≤ s.length := by
  unfold pathQueryOf
  by_cases hps : pathStartOf s ≠ NPOS
  · rw [if_pos hps]
    rcases findCharFrom_spec s 47 (schemeEndOf s + 3) with ⟨hfc, _⟩ | ⟨hge, hlt', hat, _⟩
    · exact absurd hfc hps
    · by_cases hqc : queryStartOf s ≠ NPOS ∧ pathStartOf s < queryStartOf s
      · rw [if_pos hqc]
        dsimp only
        have h0 : (substr s (pathStartOf s) (queryStartOf s - pathStartOf s))[0]? = some 47 := by
          unfold substr
          rw [List.getElem?_take, if_pos (by omega), List.getElem?_drop, Nat.add_zero]
          exact hat
        refine ⟨?_, h0, ?_, ?_⟩
        · intro hnil
          rw [hnil] at h0
          simp at h0
        · unfold substr
          calc ((s.drop (pathStartOf s)).take _).length
              ≤ (s.drop (pathStartOf s)).length := List.length_take_le' _ _
            _ ≤ s.length + 1 := by rw [List.length_drop]; omega
        · unfold substrFrom
          rw [List.length_drop]
          omega
      · rw [if_neg hqc]
        dsimp only
        have h0 : (substrFrom s (pathStartOf s))[0]? = some 47 := by
          unfold substrFrom
          rw [List.getElem?_drop, Nat.add_zero]
          exact hat
        refine ⟨?_, h0, ?_, by simp⟩
        · intro hnil
          rw [hnil] at h0
          simp at h0
        · unfold substrFrom
          rw [List.length_drop]
          omega
  · rw [if_neg hps]
    dsimp only
    refine ⟨by simp, by simp, by simp, ?_⟩
    by_cases hqs : queryStartOf s ≠ NPOS
    · rw [if_pos hqs]
      unfold substrFrom
      rw [List.length_drop]
      omega
    · rw [if_neg hqs]
      simp

/-- Everything the round-trip proof needs to know about the output of a
successful `URL::parse`. -/
theorem parse_ok_anatomy (s : List Nat) (u : URL) (hlen : s.length ≤ 2 ^ 60)
    (h : URL.parse s = .ok u) :
    u.scheme.map toLowerB = u.scheme
    ∧ (∀ m : Nat, ¬ [58, 47, 47].isPrefixOf (u.scheme.drop m) = true)
    ∧ (∀ b ∈ u.host, b ≠ 47 ∧ b ≠ 63 ∧ b ≠ 58)
    ∧ u.path[0]? = some 47
    ∧ (-2147483648 ≤ u.port ∧ u.port ≤ 2147483647)
    ∧ u.scheme.length ≤ s.length ∧ u.host.length ≤ s.length
    ∧ u.path.length ≤ s.length + 1 ∧ u.query.length ≤ s.length := by
  have hlt : s.length < NPOS := by
    unfold NPOS
    omega
  unfold URL.parse at h
  by_cases hse : schemeEndOf s = NPOS
  · rw [if_pos hse] at h
    cases h
  · rw [if_neg hse] at h
    have hhplt : (hostPortOf s).length < NPOS := by
      have := hostPortOf_len_le s
      omega
    by_cases hpd : portDelimOf s ≠ NPOS
    · rw [if_pos hpd] at h
      rcases hst : stoiB (substrFrom (hostPortOf s) (portDelimOf s + 1)) with p | _ | _
      · rw [hst] at h
        cases h
        have hpq := pathQueryOf_spec s
        refine ⟨schemeOf_lower s, schemeOf_noPat s hse, ?_, hpq.2.1, stoiB_ok_range _ _ hst,
          schemeOf_len_le s, ?_, hpq.2.2.1, hpq.2.2.2⟩
        · intro b hb
          have hsep := hostPort_no_sep s hlt b
            (List.mem_of_mem_take (by rwa [substr_zero] at hb))
          exact ⟨hsep.1, hsep.2, host_before_delim s hpd b hb⟩
        · calc (substr (hostPortOf s) 0 (portDelimOf s)).length
              ≤ (hostPortOf s).length := by
                rw [substr_zero]
                exact List.length_take_le' _ _
            _ ≤ s.length := hostPortOf_len_le s
      · rw [hst] at h
        cases h
      · rw [hst] at h
        cases h
    · rw [if_neg hpd] at h
      cases h
      have hpq := pathQueryOf_spec s
      have hpdeq : portDelimOf s = NPOS := by
        by_cases hx : portDelimOf s = NPOS
        · exact hx
        · exact absurd hx hpd
      refine ⟨schemeOf_lower s, schemeOf_noPat s hse, ?_, hpq.2.1, ?_,
        schemeOf_len_le s, hostPortOf_len_le s, hpq.2.2.1, hpq.2.2.2⟩
      · intro b hb
        have hsep := hostPort_no_sep s hlt b hb
        exact ⟨hsep.1, hsep.2, hostPort_no_colon s hhplt hpdeq b hb⟩
      · dsimp only
        split <;> omega

/-! ## Reparsing a rendered URL -/

theorem drop_concat_exact (a b : List Nat) (n : Nat) (h : n = a.length) :
    (a ++ b).drop n = b := by
  subst h
  exact List.drop_left a b

theorem take_concat_exact (a b : List Nat) (n : Nat) (h : n = a.length) :
    (a ++ b).take n = a := by
  subst h
  exact List.take_left a b

/-- Reparsing a rendered URL: a string assembled as
`scheme ++ "://" ++ host ++ port-part ++ path ++ query-part` from components
with the shape a successful parse produces (lower-case scheme without
`"://"`, host free of `/ ? :`, path starting with `/` and free of `?`)
parses back to exactly those components. -/
theorem parse_render (sch host portPart path query t : List Nat) (port' : Int)
    (ht : t = sch ++ [58, 47, 47] ++ host ++ portPart ++ path
      ++ (if query = [] then [] else 63 :: query))
    (hNoPat : ∀ m : Nat, ¬ [58, 47, 47].isPrefixOf (sch.drop m) = true)
    (hLower : sch.map toLowerB = sch)
    (hHost : ∀ b ∈ host, b ≠ 47 ∧ b ≠ 63 ∧ b ≠ 58)
    (hPath0 : path[0]? = some 47)
    (hPathQ : 63 ∉ path)
    (hPort : (portPart = [] ∧ port' = (if sch = strB "https" then 443 else 80))
      ∨ (portPart = 58 :: intToBytes port'
          ∧ -2147483648 ≤ port' ∧ port' ≤ 2147483647))
    (hLen : sch.length + host.length + portPart.length + path.length
      + query.length + 10 < NPOS) :
    URL.parse t = .ok ⟨sch, host, port', path, query⟩ := by
  obtain ⟨path', rfl⟩ : ∃ path', path = 47 :: path' := by
    cases path with
    | nil => simp at hPath0
    | cons p0 path' =>
      have hp0 : p0 = 47 := by simpa using hPath0
      exact ⟨path', by rw [hp0]⟩
  rw [List.length_cons] at hLen
  obtain ⟨qpart, hqp⟩ : ∃ q, (if query = [] then ([] : List Nat) else 63 :: query) = q :=
    ⟨_, rfl⟩
  rw [hqp] at ht
  have hH47 : 47 ∉ host := fun hm => (hHost _ hm).1 rfl
  have hH63 : 63 ∉ host := fun hm => (hHost _ hm).2.1 rfl
  have hH58 : 58 ∉ host := fun hm => (hHost _ hm).2.2 rfl
  have hPP : 47 ∉ portPart ∧ 63 ∉ portPart := by
    rcases hPort with ⟨hpp, _⟩ | ⟨hpp, _, _⟩
    · rw [hpp]
      simp
    · rw [hpp]
      refine ⟨?_, ?_⟩ <;> intro hm <;> rcases List.mem_cons.mp hm with hx | hx
      · omega
      · rcases intToBytes_mem _ _ hx with hx | hx <;> omega
      · omega
      · rcases intToBytes_mem _ _ hx with hx | hx <;> omega
  have htr2 : t = sch ++ 58 :: 47 :: 47 :: (host ++ (portPart ++ (47 :: (path' ++ qpart)))) := by
    rw [ht]
    simp only [List.append_assoc, List.cons_append, List.nil_append]
  have htr3 : t = (sch ++ [58, 47, 47]) ++ (host ++ (portPart ++ (47 :: (path' ++ qpart)))) := by
    rw [ht]
    simp only [List.append_assoc, List.cons_append, List.nil_append]
  have hSE : schemeEndOf t = sch.length := by
    unfold schemeEndOf
    rw [htr2]
    exact strFind_boundary sch _ hNoPat
  have hdropA : t.drop (sch.length + 3) = host ++ (portPart ++ (47 :: (path' ++ qpart))) := by
    rw [htr3]
    exact drop_concat_exact _ _ _ (by simp)
  have hfind47 : idxOf 47 (host ++ (portPart ++ (47 :: (path' ++ qpart))))
      = some (host.length + (portPart.length + 0)) :=
    idxOf_append_some hH47 (idxOf_append_some hPP.1 (idxOf_cons_self _))
  have hPS : pathStartOf t = sch.length + 3 + (host.length + (portPart.length + 0)) := by
    unfold pathStartOf
    rw [hSE]
    exact findCharFrom_of_drop_some (by rw [hdropA]; exact hfind47)
  have hSch : schemeOf t = sch := by
    unfold schemeOf
    rw [hSE, substr_zero]
    have htake : t.take sch.length = sch := by
      rw [htr2, List.take_append_of_le_length (le_refl _), List.take_length]
    rw [htake]
    exact hLower
  have hdropX : t.drop (sch.length + 3 + (host.length + (portPart.length + 0)))
      = 47 :: (path' ++ qpart) := by
    rw [← List.drop_drop, hdropA, ← List.append_assoc]
    exact drop_concat_exact _ _ _ (by simp only [List.length_append]; omega)
  by_cases hqe : query = []
  · subst hqe
    have hqpe : qpart = [] := by
      rw [← hqp]
      simp
    rw [hqpe, List.append_nil] at hdropX
    have hfind63 : idxOf 63 (host ++ (portPart ++ (47 :: (path' ++ qpart)))) = none := by
      rw [hqpe, List.append_nil]
      exact idxOf_append_none hH63 (idxOf_append_none hPP.2 (idxOf_none_of_not_mem hPathQ))
    have hQS : queryStartOf t = NPOS := by
      unfold queryStartOf
      rw [hSE]
      exact findCharFrom_of_drop_none (by rw [hdropA]; exact hfind63)
    have hHE : hostEndOf t = sch.length + 3 + (host.length + (portPart.length + 0)) := by
      unfold hostEndOf
      rw [hPS, hQS]
      rw [min_eq_left (show sch.length + 3 + (host.length + (portPart.length + 0)) ≤ NPOS
        from by omega)]
      rw [if_neg (show ¬ sch.length + 3 + (host.length + (portPart.length + 0)) = NPOS
        from by omega)]
    have hHP : hostPortOf t = host ++ portPart := by
      unfold hostPortOf substr
      rw [hSE, hHE, hdropA]
      rw [show sch.length + 3 + (host.length + (portPart.length + 0)) - (sch.length + 3)
          = (host ++ portPart).length from by simp only [List.length_append]; omega]
      rw [← List.append_assoc]
      exact take_concat_exact _ _ _ rfl
    have hPQ : pathQueryOf t (pathStartOf t) (queryStartOf t) = (47 :: path', []) := by
      unfold pathQueryOf
      rw [hPS, hQS]
      rw [if_pos (show sch.length + 3 + (host.length + (portPart.length + 0)) ≠ NPOS
        from by omega)]
      rw [if_neg (show ¬ (NPOS ≠ NPOS
          ∧ sch.length + 3 + (host.length + (portPart.length + 0)) < NPOS)
        from fun hc => hc.1 rfl)]
      have harg : substrFrom t (sch.length + 3 + (host.length + (portPart.length + 0)))
          = 47 :: path' := by
        unfold substrFrom
        exact hdropX
      rw [harg]
    have hPQ1 : (pathQueryOf t (pathStartOf t) (queryStartOf t)).1 = 47 :: path' := by
      rw [hPQ]
    have hPQ2 : (pathQueryOf t (pathStartOf t) (queryStartOf t)).2 = ([] : List Nat) := by
      rw [hPQ]
    rcases hPort with ⟨hppe, hpv⟩ | ⟨hppe, hr1, hr2⟩
    · subst hppe
      rw [List.append_nil] at hHP
      have hPD : portDelimOf t = NPOS := by
        unfold portDelimOf
        rw [hHP]
        apply findCharFrom_of_drop_none
        rw [List.drop_zero]
        exact idxOf_none_of_not_mem hH58
      unfold URL.parse
      rw [hSE]
      rw [if_neg (show ¬ sch.length = NPOS from by omega)]
      rw [hPD]
      rw [if_neg (show ¬ NPOS ≠ NPOS from fun hc => hc rfl)]
      rw [hSch, hHP, hPQ1, hPQ2, hpv]
    · subst hppe
      have hPD : portDelimOf t = 0 + (host.length + 0) := by
        unfold portDelimOf
        rw [hHP]
        apply findCharFrom_of_drop_some
        rw [List.drop_zero]
        exact idxOf_append_some hH58 (idxOf_cons_self _)
      have hstoi : stoiB (substrFrom (hostPortOf t) (0 + (host.length + 0) + 1))
          = .ok port' := by
        rw [hHP]
        unfold substrFrom
        rw [show host ++ 58 :: intToBytes port' = (host ++ [58]) ++ intToBytes port'
          from by simp only [List.append_assoc, List.cons_append, List.nil_append]]
        rw [drop_concat_exact _ _ _ (by simp)]
        exact stoiB_intToBytes port' hr1 hr2
      have hHost2 : substr (hostPortOf t) 0 (0 + (host.length + 0)) = host := by
        rw [substr_zero, hHP]
        exact take_concat_exact _ _ _ (by simp)
      unfold URL.parse
      rw [hSE]
      rw [if_neg (show ¬ sch.length = NPOS from by omega)]
      rw [hPD]
      rw [if_pos (show 0 + (host.length + 0) ≠ NPOS from by omega)]
      rw [hstoi]
      show ParseOutcome.ok ⟨schemeOf t, substr (hostPortOf t) 0 (0 + (host.length + 0)), port',
          (pathQueryOf t (pathStartOf t) (queryStartOf t)).1,
          (pathQueryOf t (pathStartOf t) (queryStartOf t)).2⟩
        = ParseOutcome.ok ⟨sch, host, port', 47 :: path', []⟩
      rw [hSch, hHost2, hPQ1, hPQ2]
  · have hqpe : qpart = 63 :: query := by
      rw [← hqp, if_neg hqe]
    rw [hqpe] at hdropX
    have hP' : 63 ∉ path' := fun hm => hPathQ (List.mem_cons_of_mem _ hm)
    have hfind63 : idxOf 63 (host ++ (portPart ++ (47 :: (path' ++ qpart))))
        = some (host.length + (portPart.length + (1 + (path'.length + 0)))) := by
      rw [hqpe]
      exact idxOf_append_some hH63 (idxOf_append_some hPP.2
        (@idxOf_append_some 63 [47] (path' ++ 63 :: query) (path'.length + 0) (by decide)
          (idxOf_append_some hP' (idxOf_cons_self query))))
    have hQS : queryStartOf t
        = sch.length + 3 + (host.length + (portPart.length + (1 + (path'.length + 0)))) := by
      unfold queryStartOf
      rw [hSE]
      exact findCharFrom_of_drop_some (by rw [hdropA]; exact hfind63)
    have hHE : hostEndOf t = sch.length + 3 + (host.length + (portPart.length + 0)) := by
      unfold hostEndOf
      rw [hPS, hQS]
      rw [min_eq_left (by omega)]
      rw [if_neg (show ¬ sch.length + 3 + (host.length + (portPart.length + 0)) = NPOS
        from by omega)]
    have hHP : hostPortOf t = host ++ portPart := by
      unfold hostPortOf substr
      rw [hSE, hHE, hdropA]
      rw [show sch.length + 3 + (host.length + (portPart.length + 0)) - (sch.length + 3)
          = (host ++ portPart).length from by simp only [List.length_append]; omega]
      rw [← List.append_assoc]
      exact take_concat_exact _ _ _ rfl
    have hPQ : pathQueryOf t (pathStartOf t) (queryStartOf t) = (47 :: path', query) := by
      unfold pathQueryOf
      rw [hPS, hQS]
      rw [if_pos (show sch.length + 3 + (host.length + (portPart.length + 0)) ≠ NPOS
        from by omega)]
      rw [if_pos (show (sch.length + 3
            + (host.length + (portPart.length + (1 + (path'.length + 0)))) ≠ NPOS)
          ∧ sch.length + 3 + (host.length + (portPart.length + 0))
            < sch.length + 3 + (host.length + (portPart.length + (1 + (path'.length + 0))))
        from ⟨by omega, by omega⟩)]
      have harg1 : substr t (sch.length + 3 + (host.length + (portPart.length + 0)))
          (sch.length + 3 + (host.length + (portPart.length + (1 + (path'.length + 0))))
            - (sch.length + 3 + (host.length + (portPart.length + 0))))
          = 47 :: path' := by
        unfold substr
        rw [hdropX]
        exact take_concat_exact (47 :: path') (63 :: query) _
          (by simp only [List.length_cons]; omega)
      have harg2 : substrFrom t (sch.length + 3
            + (host.length + (portPart.length + (1 + (path'.length + 0)))) + 1)
          = query := by
        unfold substrFrom
        rw [show sch.length + 3 + (host.length + (portPart.length + (1 + (path'.length + 0)))) + 1
            = sch.length + 3 + (host.length + (portPart.length + (1 + (path'.length + 1))))
          from by omega]
        rw [← List.drop_drop, hdropA, hqpe]
        rw [show host ++ (portPart ++ (47 :: (path' ++ (63 :: query))))
            = (host ++ (portPart ++ (47 :: (path' ++ [63])))) ++ query
          from by simp only [List.append_assoc, List.cons_append, List.nil_append]]
        exact drop_concat_exact _ _ _
          (by simp only [List.length_append, List.length_cons, List.length_nil]; omega)
      rw [harg1, harg2]
    have hPQ1 : (pathQueryOf t (pathStartOf t) (queryStartOf t)).1 = 47 :: path' := by
      rw [hPQ]
    have hPQ2 : (pathQueryOf t (pathStartOf t) (queryStartOf t)).2 = query := by
      rw [hPQ]
    rcases hPort with ⟨hppe, hpv⟩ | ⟨hppe, hr1, hr2⟩
    · subst hppe
      rw [List.append_nil] at hHP
      have hPD : portDelimOf t = NPOS := by
        unfold portDelimOf
        rw [hHP]
        apply findCharFrom_of_drop_none
        rw [List.drop_zero]
        exact idxOf_none_of_not_mem hH58
      unfold URL.parse
      rw [hSE]
      rw [if_neg (show ¬ sch.length = NPOS from by omega)]
      rw [hPD]
      rw [if_neg (show ¬ NPOS ≠ NPOS from fun hc => hc rfl)]
      rw [hSch, hHP, hPQ1, hPQ2, hpv]
    · subst hppe
      have hPD : portDelimOf t = 0 + (host.length + 0) := by
        unfold portDelimOf
        rw [hHP]
        apply findCharFrom_of_drop_some
        rw [List.drop_zero]
        exact idxOf_append_some hH58 (idxOf_cons_self _)
      have hstoi : stoiB (substrFrom (hostPortOf t) (0 + (host.length + 0) + 1))
          = .ok port' := by
        rw [hHP]
        unfold substrFrom
        rw [show host ++ 58 :: intToBytes port' = (host ++ [58]) ++ intToBytes port'
          from by simp only [List.append_assoc, List.cons_append, List.nil_append]]
        rw [drop_concat_exact _ _ _ (by simp)]
        exact stoiB_intToBytes port' hr1 hr2
      have hHost2 : substr (hostPortOf t) 0 (0 + (host.length + 0)) = host := by
        rw [substr_zero, hHP]
        exact take_concat_exact _ _ _ (by simp)
      unfold URL.parse
      rw [hSE]
      rw [if_neg (show ¬ sch.length = NPOS from by omega)]
      rw [hPD]
      rw [if_pos (show 0 + (host.length + 0) ≠ NPOS from by omega)]
      rw [hstoi]
      show ParseOutcome.ok ⟨schemeOf t, substr (hostPortOf t) 0 (0 + (host.length + 0)), port',
          (pathQueryOf t (pathStartOf t) (queryStartOf t)).1,
          (pathQueryOf t (pathStartOf t) (queryStartOf t)).2⟩
        = ParseOutcome.ok ⟨sch, host, port', 47 :: path', query⟩
      rw [hSch, hHost2, hPQ1, hPQ2]

/-- Claim C5 (amended): for every string `s` on which `URL::parse` succeeds,
if the parsed path contains no `?` and the parsed scheme is `"http"` or
`"https"` (or the parsed port is 80), then
`URL.parse (URL.to_string (parse s)) = parse s`.  (The length bound keeps
every index clear of the `std::string::npos` sentinel.) -/
theorem c5_roundtrip_amended (s : List Nat) (u : URL)
    (hlen : s.length ≤ 2 ^ 60)
    (h : URL.parse s = .ok u)
    (hq : 63 ∉ u.path)
    (hsch : u.scheme = strB "http" ∨ u.scheme = strB "https" ∨ u.port = 80) :
    URL.parse (URL.to_string u) = URL.parse s := by
  rw [h]
  obtain ⟨hA1, hA2, hB, hC, hD, hE1, hE2, hE3, hE4⟩ := parse_ok_anatomy s u hlen h
  unfold URL.to_string
  rw [strB_sep]
  by_cases hemit : (u.scheme = strB "http" ∧ u.port ≠ 80)
      ∨ (u.scheme = strB "https" ∧ u.port ≠ 443)
  · rw [if_pos hemit]
    refine parse_render u.scheme u.host (58 :: intToBytes u.port) u.path u.query _ u.port
      rfl hA2 hA1 hB hC hq (Or.inr ⟨rfl, hD.1, hD.2⟩) ?_
    have hib := intToBytes_length_le u.port
    have hna : u.port.natAbs ≤ 2147483648 := by omega
    unfold NPOS
    simp only [List.length_cons]
    omega
  · rw [if_neg hemit]
    push_neg at hemit
    have hpv : u.port = (if u.scheme = strB "https" then 443 else 80) := by
      by_cases hhttps : u.scheme = strB "https"
      · rw [if_pos hhttps]
        exact hemit.2 hhttps
      · rw [if_neg hhttps]
        rcases hsch with h1 | h1 | h1
        · exact hemit.1 h1
        · exact absurd h1 hhttps
        · exact h1
    refine parse_render u.scheme u.host [] u.path u.query _ u.port
      rfl hA2 hA1 hB hC hq (Or.inl ⟨rfl, hpv⟩) ?_
    unfold NPOS
    simp only [List.length_nil]
    omega

/-- Witness for the amended C5 round trip at a concrete parseable URL with an
explicit port and a query. -/
theorem c5_roundtrip_amended_witness :
    URL.parse (URL.to_string ⟨strB "http", strB "example.com", 8080, strB "/a", strB "q=1"⟩)
      = URL.parse (strB "http://example.com:8080/a?q=1") :=
  c5_roundtrip_amended (strB "http://example.com:8080/a?q=1")
    ⟨strB "http", strB "example.com", 8080, strB "/a", strB "q=1"⟩
    (by decide) (by decide) (by decide) (Or.inl (by decide))

end Crawl
